import Mathlib

/-!
Verification of the S3-Server distributed object store (Go sources) against
its natural-language specification.  Go code is shallowly embedded: Go byte
slices become `List Nat`, Go strings become Lean `String` (or `List Char`
where character-level manipulation is needed), per-node network outcomes
become explicit result lists, and cryptographic hashes (MD5) are abstracted
as function parameters, since no claim depends on the internals of MD5.
-/

namespace S3Spec

/-- Byte strings (Go `[]byte`) as lists of byte values. -/
abbrev Bytes := List Nat

/-! ## Hex / base64 encodings (Go `encoding/hex`, `encoding/base64`) -/

/-- Lowercase hex digit for a value below 16 (Go `encoding/hex` alphabet). -/
def hexDigit (n : Nat) : Char :=
  if n < 10 then Char.ofNat (48 + n) else Char.ofNat (87 + n)

/-- Lowercase hex encoding of a byte string, two digits per byte
(Go `hex.EncodeToString`). -/
def hexEncode (bs : Bytes) : String :=
  String.mk (bs.flatMap (fun b => [hexDigit (b / 16 % 16), hexDigit (b % 16)]))

/-- Standard base64 alphabet (RFC 4648), used by the spec's reading of
`Content-MD5` as a base64-encoded digest. -/
def base64Char (n : Nat) : Char :=
  if n < 26 then Char.ofNat (65 + n)
  else if n < 52 then Char.ofNat (97 + (n - 26))
  else if n < 62 then Char.ofNat (48 + (n - 52))
  else if n = 62 then '+'
  else '/'

/-- Base64 encoding with padding, following the spec's words: the
`Content-MD5` header is the base64 encoding of the body's MD5. -/
def base64Encode (bs : Bytes) : String :=
  String.mk (go bs)
where
  go : Bytes → List Char
    | [] => []
    | [a] =>
        [base64Char (a / 4 % 64), base64Char (a % 4 * 16), '=', '=']
    | [a, b] =>
        [base64Char (a / 4 % 64), base64Char (a % 4 * 16 + b / 16 % 16),
         base64Char (b % 16 * 4), '=']
    | a :: b :: c :: rest =>
        base64Char (a / 4 % 64) :: base64Char (a % 4 * 16 + b / 16 % 16) ::
        base64Char (b % 16 * 4 + c / 64 % 4) :: base64Char (c % 64) :: go rest

/-- Wrap a string in double quotes, as Go's backquoted `"` + s + `"` does
for ETags. -/
def quote (s : String) : String := "\"" ++ s ++ "\""

/-- Decimal digits of a natural number, most significant first
(Go `fmt` `%d` for a non-negative value). -/
def natToChars (n : Nat) : List Char :=
  if h : n < 10 then [hexDigit n]
  else natToChars (n / 10) ++ [hexDigit (n % 10)]
decreasing_by exact Nat.div_lt_self (by omega) (by omega)

/-- Rendering of `%d` as a string. -/
def goItoa (n : Nat) : String := String.mk (natToChars n)

/-- Leading-match test on character lists (`needle` starts `hay`). -/
def hasLead : List Char → List Char → Bool
  | [], _ => true
  | _ :: _, [] => false
  | p :: ps, c :: cs => p = c && hasLead ps cs

/-- Substring occurrence on character lists. -/
def occursIn (needle hay : List Char) : Bool :=
  match hay with
  | [] => needle.isEmpty
  | _ :: t => hasLead needle hay || occursIn needle t

/-- Go `strings.Contains`. -/
def goContains (s sub : String) : Bool := occursIn sub.data s.data

/-! ## Replication coordinator (src/miniobject/cluster.go)

`ClusterBackend.Put` fans a buffered body out to the N replica nodes, then
drains the result channel, counting successes and remembering the first
successful non-empty ETag; `ClusterBackend.Get` fans reads out and returns
the first arrival that has no error and a non-404 status.  The embedding
takes the per-node results in channel-arrival order as an explicit list. -/

/-- Outcome of one node-level `Put` inside the cluster fan-out:
the node's ETag and its error (`none` = success). -/
structure PutNodeResult where
  etag : String
  err : Option String
  deriving DecidableEq, Repr

/-- Number of successful node acks among the fan-out results. -/
def countPutSuccesses (rs : List PutNodeResult) : Nat :=
  (rs.filter (fun r => r.err.isNone)).length

/-- ETag of the first successful node in arrival order (spec side of the
"returned ETag is the first node's ETag" sentence). -/
def firstSuccessEtag (rs : List PutNodeResult) : Option String :=
  (rs.find? (fun r => r.err.isNone)).map (·.etag)

/-- Resolution loop of `ClusterBackend.Put` (cluster.go:80-95): drain all
results, count successes, keep the first non-empty ETag of a successful
ack, then require at least `w` successes. -/
def clusterPutResolve (w : Nat) (rs : List PutNodeResult) : Except String String :=
  let acc := rs.foldl
    (fun (acc : Nat × String) r =>
      if r.err.isNone then
        (acc.1 + 1, if acc.2 = "" then r.etag else acc.2)
      else acc)
    (0, "")
  if acc.1 < w then
    .error ("write quorum not met: " ++ goItoa acc.1 ++ "/" ++ goItoa w)
  else
    .ok acc.2

/-- Gateway error-code mapping for `handlePut` (part_006:330-339): a backend
error containing "BadDigest" renders as `BadDigest`, anything else as
`InternalError`. -/
def putErrorCode (msg : String) : String :=
  if goContains msg "BadDigest" then "BadDigest" else "InternalError"

/-- Outcome of one node-level `Get` inside the cluster fan-out (stream
omitted; contentType/etag/size/status kept). -/
structure GetNodeResult where
  contentType : String
  etag : String
  size : Int
  status : Nat
  err : Option String
  deriving DecidableEq, Repr

/-- Result of the cluster-level read. -/
inductive ClusterGetOutcome where
  | success (r : GetNodeResult)
  | notFound
  deriving DecidableEq, Repr

/-- Resolution loop of `ClusterBackend.Get` (cluster.go:127-138): return the
first arrival with no error and non-404 status; if none of the `N` results
qualifies, return status 404 with error `NoSuchKey`. -/
def clusterGetResolve (rs : List GetNodeResult) : ClusterGetOutcome :=
  match rs.find? (fun r => r.err.isNone && r.status != 404) with
  | some r => .success r
  | none => .notFound

/-- HTTP status the cluster read reports (cluster.go:131 and 138). -/
def clusterGetStatus : ClusterGetOutcome → Nat
  | .success r => r.status
  | .notFound => 404

/-- Example fan-out outcome for the put-quorum witness: two acks with the
same ETag and one failed node. -/
def examplePutResults : List PutNodeResult :=
  [⟨"\"aa\"", none⟩, ⟨"", some "connection refused"⟩, ⟨"\"aa\"", none⟩]

/-- Example fan-out outcome for the read counterexample: the only replica
fails with a non-404 I/O error. -/
def exampleGetResults : List GetNodeResult :=
  [⟨"", "", 0, 500, some "GET failed: 500"⟩,
   ⟨"", "", 0, 500, some "GET failed: 500"⟩,
   ⟨"", "", 0, 500, some "GET failed: 500"⟩]

/-- Example fan-out outcome for the amended-read witness. -/
def exampleGetResults2 : List GetNodeResult :=
  [⟨"", "", 0, 404, some "NoSuchKey"⟩,
   ⟨"text/plain", "\"aa\"", 5, 200, none⟩]

/-! ## Storage node (src/miniobject/localfs.go)

`LocalFSBackend` keeps, per `(bucket, key)`, a payload file and a sidecar
metadata file.  The embedding keeps both as association lists (newest entry
first, mirroring overwrite), plus a count of live temp files so that the
create-temp / deferred-remove protocol of `Put` is visible. -/

/-- Sidecar metadata record (localfs.go `metadata`). -/
structure ObjMeta where
  contentType : String
  etag : String
  size : Nat
  deriving DecidableEq, Repr

/-- Visible on-disk state of one node's data directory. -/
structure FSState where
  objects : List ((String × String) × Bytes)
  metas : List ((String × String) × ObjMeta)
  tmpCount : Nat
  deriving DecidableEq, Repr

/-- Path lookup: the newest entry for `(bucket, key)` wins. -/
def lookupBK {α : Type} (l : List ((String × String) × α)) (b k : String) :
    Option α :=
  (l.find? (fun e => e.1 = (b, k))).map (·.2)

/-- Overwriting write of the file at `(bucket, key)`. -/
def setBK {α : Type} (l : List ((String × String) × α)) (b k : String)
    (v : α) : List ((String × String) × α) :=
  ((b, k), v) :: l

/-- The empty data directory. -/
def emptyFS : FSState := ⟨[], [], 0⟩

/-- `LocalFSBackend.Put` (localfs.go:44-112): create a temp file, copy the
body while hashing, compute `etag = quote(hex(md5))`; if a `Content-MD5`
header was supplied and differs from the hex digest (Go compares against
`strings.Trim(etag, quote)`, i.e. the hex string), fail with `BadDigest` —
the deferred remove deletes the temp file and neither sidecar nor payload
is touched; otherwise write the sidecar and rename the temp file into
place (after which the deferred remove is a no-op). -/
def localPut (md5f : Bytes → Bytes) (st : FSState) (b k : String)
    (body : Bytes) (ct contentMD5 : String) :
    Except String String × FSState :=
  let stTmp : FSState := { st with tmpCount := st.tmpCount + 1 }
  let hex := hexEncode (md5f body)
  let etag := quote hex
  if contentMD5 ≠ "" ∧ contentMD5 ≠ hex then
    (.error "BadDigest", { stTmp with tmpCount := stTmp.tmpCount - 1 })
  else
    (.ok etag,
      { objects := setBK st.objects b k body
        metas := setBK st.metas b k ⟨ct, etag, body.length⟩
        tmpCount := stTmp.tmpCount - 1 })

/-! ## Range parsing (localfs.go `parseRange`) and range reads -/

/-- Go `strings.Split(s, "-")`. -/
def splitOnDash (cs : List Char) : List (List Char) :=
  match cs with
  | [] => [[]]
  | c :: cs' =>
      match splitOnDash cs' with
      | [] => [[]]
      | r :: rs => if c = '-' then [] :: r :: rs else (c :: r) :: rs

/-- Numeric value of a digit string (most significant first). -/
def digitsVal (cs : List Char) : Nat :=
  cs.foldl (fun a c => a * 10 + (c.toNat - 48)) 0

/-- Go `fmt.Sscanf(s, "%d", &v)` with the error ignored, as `parseRange`
does: skip leading blanks, allow a `+`, read the longest digit run (any
trailing bytes are ignored); when no digits are present the scan fails and
the variable keeps its zero value. -/
def scanNat (cs : List Char) : Nat :=
  let cs := cs.dropWhile (fun c => c = ' ' || c = '\t')
  let cs := match cs with
    | '+' :: rest => rest
    | _ => cs
  digitsVal (cs.takeWhile Char.isDigit)

/-- Final bounds check of `parseRange` (localfs.go:297-301). -/
def checkRange (start en size : Int) : Except String (Int × Int) :=
  if start < 0 ∨ en ≥ size ∨ start > en then .error "range not satisfiable"
  else .ok (start, en)

/-- `parseRange` (localfs.go:261-302). -/
def parseRange (spec : List Char) (size : Int) : Except String (Int × Int) :=
  if hasLead "bytes=".data spec = false then .error "invalid range"
  else
    match splitOnDash (spec.drop 6) with
    | [p0, p1] =>
        if p0.isEmpty then
          if p1.isEmpty then .error "invalid range"
          else
            let suffix : Int := scanNat p1
            let start0 := size - suffix
            let start := if start0 < 0 then 0 else start0
            checkRange start (size - 1) size
        else if p1.isEmpty then
          checkRange (scanNat p0) (size - 1) size
        else
          checkRange (scanNat p0) (scanNat p1) size
    | _ => .error "invalid range"

/-- Result of a node-level `Get` (stream materialised as bytes). -/
inductive LocalGetResult where
  | notFound
  | rangeErr
  | ok (body : Bytes) (ct etag : String) (size : Int) (status : Nat)
  deriving DecidableEq, Repr

/-- `LocalFSBackend.Get` (localfs.go:115-161): read the sidecar (404 if
missing), open the payload (404 if missing); with a range, parse it against
the sidecar size (416 on failure), seek to `start` and serve
`end - start + 1` bytes with status 206; otherwise serve the whole payload
with status 200. -/
def localGet (st : FSState) (b k : String) (rangeSpec : String) :
    LocalGetResult :=
  match lookupBK st.metas b k with
  | none => .notFound
  | some meta =>
      match lookupBK st.objects b k with
      | none => .notFound
      | some payload =>
          if rangeSpec = "" then
            .ok payload meta.contentType meta.etag (meta.size : Int) 200
          else
            match parseRange rangeSpec.data (meta.size : Int) with
            | .error _ => .rangeErr
            | .ok (s, e) =>
                .ok ((payload.drop s.toNat).take (e - s + 1).toNat)
                  meta.contentType meta.etag (e - s + 1) 206

/-- Gateway `Content-Range` header for a 206 response (part_006:389):
`fmt.Sprintf("bytes %s", rangeSpec)` over the raw request header. -/
def gatewayContentRange (rangeSpec : String) : String :=
  "bytes " ++ rangeSpec

/-- Node `formatContentRange` (node.go:191-195): strip a leading `bytes=`
and append `/*`. -/
def nodeContentRange (rangeSpec : String) : String :=
  let t := if hasLead "bytes=".data rangeSpec.data then
      String.mk (rangeSpec.data.drop 6)
    else rangeSpec
  "bytes " ++ t ++ "/*"

/-- Constant stand-in for MD5 used by concrete counterexamples (MD5 itself
is abstracted; only the encoding layer is at issue). -/
def md5Zero : Bytes → Bytes := fun _ => List.replicate 16 0

/-- Bytes of the string "0123456789". -/
def exampleBody : Bytes := [48, 49, 50, 51, 52, 53, 54, 55, 56, 57]

/-- One-object node state holding "0123456789" at `b/k`. -/
def exampleFS : FSState :=
  ⟨[(("b", "k"), exampleBody)],
   [(("b", "k"), ⟨"text/plain", "\"e\"", 10⟩)], 0⟩

/-! ## Erasure-coding coordinator (src/unnamed/part_007, `ECBackend`)

Reed–Solomon `Split`/`Join` are embedded concretely (chunking with zero
padding, concatenate-and-trim); parity generation and shard recovery are
library internals abstracted as function parameters, since no claim
depends on the parity contents. -/

/-- EC manifest sidecar (part_007 `ECManifest`). -/
structure ECManifest where
  dataShards : Nat
  parityShards : Nat
  size : Nat
  contentType : String
  checksum : String
  deriving DecidableEq, Repr

/-- `reedsolomon.Split`: cut the payload into `k` data shards of
`ceil(len/k)` bytes (zero-padding the tail) plus `m` zero-initialised
parity shards. -/
def rsSplit (k m : Nat) (data : Bytes) : List Bytes :=
  let per := (data.length + k - 1) / k
  let padded := data ++ List.replicate (k * per - data.length) 0
  ((List.range k).map (fun i => (padded.drop (i * per)).take per)) ++
    (List.range m).map (fun _ => List.replicate per 0)

/-- `reedsolomon.Join`: concatenate the first `k` shards and trim to the
manifest size. -/
def rsJoin (k size : Nat) (shards : List Bytes) : Bytes :=
  ((shards.take k).flatten).take size

/-- `ECBackend.Put` (part_007:550-636): stage the body, split and encode
it, upload the shards and the manifest `{k, m, size, contentType,
checksum := contentMD5}` concurrently, fail if any upload errored, and
return the ETag `quote(contentMD5)` — the client-supplied header wrapped
in quotes, not a digest of the payload. -/
def ecPut (k m : Nat) (encodeParity : List Bytes → List Bytes)
    (data : Bytes) (contentType contentMD5 : String)
    (uploadErrs : List (Option String)) :
    Except String (String × ECManifest × List Bytes) :=
  let dataChunks := (rsSplit k m data).take k
  let shards := dataChunks ++ encodeParity dataChunks
  let manifest : ECManifest := ⟨k, m, data.length, contentType, contentMD5⟩
  match uploadErrs.filterMap id with
  | e :: _ => .error e
  | [] => .ok (quote contentMD5, manifest, shards)

/-- `ECBackend.Head` (part_007:699-715): serve the manifest's content type,
`quote(checksum)` as ETag and size; a missing manifest is "not found". -/
def ecHead (mres : Option ECManifest) : Option (String × String × Nat) :=
  mres.map (fun m => (m.contentType, quote m.checksum, m.size))

/-- `ECBackend.Get` (part_007:638-697): fetch the manifest (404 when
missing), fetch the shards, reconstruct when at least `dataShards` are
present (`recover` abstracts the Reed–Solomon recovery of missing shards),
join and trim to the manifest size — and return the FULL payload with
status 200; a non-empty `rangeSpec` only triggers a log line and is never
applied (part_007:690-694). -/
def ecGet (k : Nat) (recover : List (Option Bytes) → List Bytes)
    (mres : Option ECManifest) (shardRes : List (Option Bytes))
    (rangeSpec : String) :
    Except (Nat × String) (Bytes × String × String × Nat × Nat) :=
  match mres with
  | none => .error (404, "NoSuchKey")
  | some manifest =>
      if (shardRes.filter Option.isSome).length < k then
        .error (500, "reconstruction failed")
      else
        let shards := recover shardRes
        let data := rsJoin k manifest.size shards
        let _ := rangeSpec
        .ok (data, manifest.contentType, quote manifest.checksum,
          manifest.size, 200)

/-- Identity recovery: with every shard present, recovery returns the
fetched shards unchanged. -/
def recoverPresent : List (Option Bytes) → List Bytes :=
  fun ss => ss.map (fun o => o.getD [])

/-! ## Placement ring (hashring.go, quoted in src/CHANGELOG.md:354-394)

The 4-byte MD5-derived point hash is abstracted as a parameter
`hash : node → index → point`; the ring structure (150 virtual points per
node, sorted point array, point → owner map, clockwise walk collecting
distinct owners) is embedded concretely.  The Go walk visits
`ring[(idx+i) % len]` for `i < len`, which is exactly a rotation of the
sorted ring. -/

/-- `virtualNodes` (hashring source). -/
def virtualNodes : Nat := 150

/-- All `(point, owner)` pairs inserted by `rebuild`. -/
def ringPoints (hash : String → Nat → Nat) (nodes : List String) :
    List (Nat × String) :=
  nodes.flatMap (fun nd =>
    (List.range virtualNodes).map (fun i => (hash nd i, nd)))

/-- Go map semantics for `nodeMap`: the last insertion for a point wins;
a missing point yields the zero value `""`. -/
def mapLookup (m : List (Nat × String)) (h : Nat) : String :=
  match m.reverse.find? (fun e => e.1 = h) with
  | some e => e.2
  | none => ""

/-- The ring after `NewHashRing`/`rebuild`. -/
structure HashRing where
  nodes : List String
  ring : List Nat
  nodeMap : List (Nat × String)

/-- `NewHashRing` + `rebuild`: emit every virtual point, sort the point
array, keep the insertion list as the map. -/
def newHashRing (hash : String → Nat → Nat) (ns : List String) : HashRing :=
  let pts := ringPoints hash ns
  ⟨ns, (pts.map (·.1)).mergeSort (· ≤ ·), pts⟩

/-- The collecting walk of `GetNodes`: scan candidates in ring order,
skipping owners already seen, until `n` distinct owners are collected. -/
def collectDistinct : Nat → List String → List String → List String
  | _, _, [] => []
  | n, seen, x :: xs =>
      if n = 0 then []
      else if x ∈ seen then collectDistinct n seen xs
      else x :: collectDistinct (n - 1) (x :: seen) xs

/-- `HashRing.GetNodes`: clamp `n` to the node count, hash the key,
binary-search the first point at or after the hash (wrapping to 0), then
walk the ring collecting the first `n` distinct owners. -/
def getNodes (hash : String → Nat → Nat) (hr : HashRing) (key : String)
    (n : Nat) : List String :=
  if hr.nodes.isEmpty then []
  else
    let n := min n hr.nodes.length
    let h := hash key 0
    let idx0 := hr.ring.findIdx (fun p => h ≤ p)
    let idx := if idx0 ≥ hr.ring.length then 0 else idx0
    collectDistinct n [] ((hr.ring.rotate idx).map (mapLookup hr.nodeMap))

/-- Example node set for the ring witness. -/
def exampleNodes : List String := ["n1", "n2", "n3"]

/-- Index of a node in the example node set. -/
def nodeIdx (s : String) : Nat :=
  if s = "n1" then 0 else if s = "n2" then 1 else 2

/-- Collision-free example point hash: node index spread by the virtual
node count. -/
def hashEx (s : String) (i : Nat) : Nat := nodeIdx s * virtualNodes + i

/-! ## Multipart manager (src/cmd/s3_server/rate_limiter.go:339-546)

A staged upload maps part numbers to the bytes written by `UploadPart`,
which records `PartInfo{partNumber, etag := quote(hex(md5(bytes))),
size}` for each part and stores the same bytes in the part file
(rate_limiter.go:377-414); the association list below represents both,
newest entry first to mirror map overwrite.  `validateParts`
(rate_limiter.go:486-520) makes a single pass that interleaves the
strictly-increasing scan (`PartNumber <= prevNum` → `InvalidPartOrder`),
the duplicate check against a `seen` set (`InvalidPart`), and the
stored-entry/ETag match (`InvalidPart`); `CompleteUpload`
(rate_limiter.go:417-475) concatenates the referenced part files in list
order while hashing each part again, and returns the quoted composite
ETag `hex(md5(concat of the raw part MD5s)) ++ "-" ++ count`. -/

/-- S3 error codes distinguished by multipart validation. -/
inductive S3Err where
  | InvalidPart
  | InvalidPartOrder
  deriving DecidableEq, Repr

/-- One entry of a CompleteMultipartUpload request (rate_limiter.go
`CompletePart`). -/
structure CompletePart where
  partNumber : Nat
  etag : String
  deriving DecidableEq, Repr

/-- Staged-part lookup by part number (`upload.Parts[part.PartNumber]`
and the part file at `partPath`, both written by `UploadPart`). -/
def lookupPart (l : List (Nat × Bytes)) (n : Nat) : Option Bytes :=
  (l.find? (fun e => e.1 = n)).map (·.2)

/-- Statement-side abbreviation for the per-part match condition of
`validateParts` (rate_limiter.go:505-511): a staged entry exists under the
part number and its recorded ETag — the quoted hex MD5 of the staged
bytes — equals the request's ETag. -/
def partMatches (md5f : Bytes → Bytes) (stored : List (Nat × Bytes))
    (p : CompletePart) : Bool :=
  match lookupPart stored p.partNumber with
  | some bytes => quote (hexEncode (md5f bytes)) = p.etag
  | none => false

/-- Loop of `MultipartManager.validateParts` (rate_limiter.go:494-517):
one pass carrying `prevNum` (initially 0) and the `seen` set; a
non-increasing part number is `InvalidPartOrder`, a seen number is
`InvalidPart` (unreachable after the previous check), a missing or
ETag-mismatched staged entry is `InvalidPart`. -/
def validatePartsGo (md5f : Bytes → Bytes) (stored : List (Nat × Bytes)) :
    Nat → List Nat → List CompletePart → Except S3Err Unit
  | _, _, [] => .ok ()
  | prevNum, seen, p :: rest =>
      if p.partNumber ≤ prevNum then .error .InvalidPartOrder
      else if p.partNumber ∈ seen then .error .InvalidPart
      else
        match lookupPart stored p.partNumber with
        | none => .error .InvalidPart
        | some bytes =>
            if quote (hexEncode (md5f bytes)) ≠ p.etag then
              .error .InvalidPart
            else
              validatePartsGo md5f stored p.partNumber
                (p.partNumber :: seen) rest

/-- `MultipartManager.validateParts` (rate_limiter.go:486-520): the empty
list is `InvalidPart`; otherwise run the single-pass scan. -/
def validateParts (md5f : Bytes → Bytes) (stored : List (Nat × Bytes))
    (ps : List CompletePart) : Except S3Err Unit :=
  if ps.isEmpty then .error .InvalidPart
  else validatePartsGo md5f stored 0 [] ps

/-- `MultipartManager.CompleteUpload` (rate_limiter.go:417-475), staging
and I/O paths elided: validate, then concatenate the referenced staged
parts in list order (re-hashing each part into the combined digest) and
return the payload handed to the backend Put together with the composite
ETag `quote(hex(md5(concat of raw part MD5s)) ++ "-" ++ count)`. -/
def completeMultipart (md5f : Bytes → Bytes) (stored : List (Nat × Bytes))
    (ps : List CompletePart) : Except S3Err (Bytes × String) :=
  match validateParts md5f stored ps with
  | .error e => .error e
  | .ok _ =>
      let payload :=
        ps.flatMap (fun p => (lookupPart stored p.partNumber).getD [])
      let md5cat :=
        ps.flatMap (fun p => md5f ((lookupPart stored p.partNumber).getD []))
      .ok (payload,
        quote (hexEncode (md5f md5cat) ++ "-" ++ goItoa ps.length))

/-- Example staged parts for the multipart witnesses. -/
def exampleStored : List (Nat × Bytes) := [(1, [97]), (2, [98, 99])]

/-- The staged parts' ETag under the constant digest `md5Zero`. -/
def exampleZeroEtag : String := "\"00000000000000000000000000000000\""

/-! ## Request coalescer (src/unnamed/part_005, `RequestCoalescer.Do`)

Interleaving model of `Do(key, fn)` for callers sharing one key.  Each
caller is a thread whose atomic steps mirror the lock-protected sections
of the Go code: `enter` (lock; look up the in-flight table; either
register as a waiter or install a fresh request record and become the
leader), `runFn` (run `fn`, store the result in the record), `delKey`
(lock; delete the key from the in-flight table), `closeCh` (close the
record's done channel and return), and a waiter's resume (blocked on the
done channel; returns the record's shared result).  Requests are
generation-indexed so that a later call creates a fresh record.  The
statistics counters of the Go code are not modelled. -/

/-- Program counter of one `Do` caller. -/
inductive ThreadState where
  | ready
  | runFn (rid : Nat)
  | delKey (rid : Nat)
  | closeCh (rid : Nat)
  | waiting (rid : Nat)
  | finished (res : Nat)
  deriving DecidableEq, Repr

/-- One in-flight request record (`inflightRequest`): the shared result and
whether `done` is closed. -/
structure ReqRec where
  result : Option Nat
  closed : Bool
  deriving DecidableEq, Repr

/-- Global state: per-thread program counters, the request records, which
record (if any) the single key maps to, and the number of `fn`
invocations. -/
structure CoState where
  threads : Nat → ThreadState
  reqs : List ReqRec
  inflight : Option Nat
  fnCalls : Nat

/-- Point update of the thread map. -/
def updThread (f : Nat → ThreadState) (t : Nat) (v : ThreadState) :
    Nat → ThreadState :=
  fun u => if u = t then v else f u

/-- Record read (out-of-range reads yield the zero record; unreachable in
executions). -/
def getReq (l : List ReqRec) (rid : Nat) : ReqRec :=
  l.getD rid ⟨none, false⟩

/-- Point update of the record list. -/
def modifyReq : List ReqRec → Nat → (ReqRec → ReqRec) → List ReqRec
  | [], _, _ => []
  | r :: rs, 0, f => f r :: rs
  | r :: rs, n + 1, f => r :: modifyReq rs n f

/-- One atomic step of thread `t` (a stutter when the thread is blocked or
done).  `fnVal t` is the value `fn` produces when thread `t` runs it. -/
def coStep (fnVal : Nat → Nat) (σ : CoState) (t : Nat) : CoState :=
  match σ.threads t with
  | .ready =>
      match σ.inflight with
      | some rid => { σ with threads := updThread σ.threads t (.waiting rid) }
      | none =>
          { σ with
            threads := updThread σ.threads t (.runFn σ.reqs.length)
            reqs := σ.reqs ++ [⟨none, false⟩]
            inflight := some σ.reqs.length }
  | .runFn rid =>
      { σ with
        threads := updThread σ.threads t (.delKey rid)
        reqs := modifyReq σ.reqs rid (fun r => { r with result := some (fnVal t) })
        fnCalls := σ.fnCalls + 1 }
  | .delKey rid =>
      { σ with
        threads := updThread σ.threads t (.closeCh rid)
        inflight := none }
  | .closeCh rid =>
      { σ with
        threads := updThread σ.threads t
          (.finished ((getReq σ.reqs rid).result.getD 0))
        reqs := modifyReq σ.reqs rid (fun r => { r with closed := true }) }
  | .waiting rid =>
      if (getReq σ.reqs rid).closed then
        { σ with
          threads := updThread σ.threads t
            (.finished ((getReq σ.reqs rid).result.getD 0)) }
      else σ
  | .finished _ => σ

/-- Execution under a schedule (list of thread ids to step). -/
def coExec (fnVal : Nat → Nat) (σ : CoState) (sched : List Nat) : CoState :=
  sched.foldl (coStep fnVal) σ

/-- All threads poised to call `Do`; no record, nothing in flight. -/
def coInit : CoState := ⟨fun _ => .ready, [], none, 0⟩

/-- Invariant of the registration phase: thread `l` is the leader about to
run `fn` on record 0, the record is fresh, the key is in flight, `fn` has
not run, and every other caller is still to arrive or already waiting. -/
def coP (l : Nat) (σ : CoState) : Prop :=
  σ.threads l = .runFn 0 ∧ σ.reqs = [⟨none, false⟩] ∧
  σ.inflight = some 0 ∧ σ.fnCalls = 0 ∧
  ∀ t, t ≠ l → σ.threads t = .ready ∨ σ.threads t = .waiting 0

/-- Invariant of the drain phase: the leader finished with `fn`'s value,
the record is closed with that value, the key is gone, `fn` ran once, and
each of the original waiters is waiting or finished with the same value. -/
def coQ (fnVal : Nat → Nat) (l : Nat) (s1 : List Nat) (σ : CoState) : Prop :=
  σ.threads l = .finished (fnVal l) ∧
  σ.reqs = [⟨some (fnVal l), true⟩] ∧
  σ.inflight = none ∧ σ.fnCalls = 1 ∧
  ∀ t ∈ s1, σ.threads t = .waiting 0 ∨ σ.threads t = .finished (fnVal l)

/-! ### Lemmas about string scanning -/

lemma hasLead_mem {needle hay : List Char} {c : Char}
    (h : hasLead needle hay = true) (hc : c ∈ needle) : c ∈ hay := by
  induction needle generalizing hay with
  | nil => cases hc
  | cons p ps ih =>
      cases hay with
      | nil => simp [hasLead] at h
      | cons q qs =>
          simp only [hasLead, Bool.and_eq_true, decide_eq_true_eq] at h
          rcases List.mem_cons.mp hc with rfl | hc'
          · simp [h.1]
          · exact List.mem_cons_of_mem _ (ih h.2 hc')

lemma occursIn_false_of_missing_char {needle hay : List Char} {c : Char}
    (hc : c ∈ needle) (hmiss : c ∉ hay) : occursIn needle hay = false := by
  induction hay with
  | nil =>
      cases needle with
      | nil => cases hc
      | cons _ _ => rfl
  | cons q qs ih =>
      simp only [occursIn, Bool.or_eq_false_iff]
      refine ⟨?_, ih (fun h => hmiss (List.mem_cons_of_mem _ h))⟩
      by_contra h
      rw [Bool.not_eq_false] at h
      exact hmiss (hasLead_mem h hc)

lemma natToChars_isDigit (n : Nat) : ∀ c ∈ natToChars n, c.isDigit := by
  induction n using Nat.strong_induction_on with
  | _ n ih =>
      intro c hc
      rw [natToChars] at hc
      by_cases h : n < 10
      · simp only [h, dite_true, List.mem_singleton] at hc
        subst hc
        simp only [hexDigit, if_pos h]
        interval_cases n <;> decide
      · simp only [h, dite_false, List.mem_append] at hc
        rcases hc with hc | hc
        · exact ih (n / 10) (Nat.div_lt_self (by omega) (by omega)) c hc
        · simp only [List.mem_singleton] at hc
          subst hc
          have h10 : n % 10 < 10 := Nat.mod_lt _ (by omega)
          simp only [hexDigit, if_pos h10]
          interval_cases h10e : (n % 10) <;> decide

/-! ### Lemmas about the put-resolution fold -/

lemma clusterPut_foldl_count (rs : List PutNodeResult) (n : Nat) (e : String) :
    (rs.foldl
      (fun (acc : Nat × String) r =>
        if r.err.isNone then
          (acc.1 + 1, if acc.2 = "" then r.etag else acc.2)
        else acc)
      (n, e)).1 = n + countPutSuccesses rs := by
  induction rs generalizing n e with
  | nil => simp [countPutSuccesses]
  | cons r rs ih =>
      cases herr : r.err with
      | none =>
          simp only [List.foldl_cons, herr, Option.isNone_none, if_true]
          rw [ih]
          simp [countPutSuccesses, List.filter_cons, herr]
          omega
      | some s =>
          simp only [List.foldl_cons, herr, Option.isNone_some, if_false]
          rw [ih]
          simp [countPutSuccesses, List.filter_cons, herr]

lemma clusterPut_foldl_etag_ne (rs : List PutNodeResult) (n : Nat) (e : String)
    (he : e ≠ "") :
    (rs.foldl
      (fun (acc : Nat × String) r =>
        if r.err.isNone then
          (acc.1 + 1, if acc.2 = "" then r.etag else acc.2)
        else acc)
      (n, e)).2 = e := by
  induction rs generalizing n with
  | nil => rfl
  | cons r rs ih =>
      cases herr : r.err with
      | none =>
          simp only [List.foldl_cons, herr, Option.isNone_none, if_true, if_neg he]
          exact ih _
      | some s =>
          simp only [List.foldl_cons, herr, Option.isNone_some, if_false]
          exact ih _

lemma clusterPut_foldl_etag (rs : List PutNodeResult) (n : Nat)
    (hne : ∀ r ∈ rs, r.err.isNone → r.etag ≠ "") :
    (rs.foldl
      (fun (acc : Nat × String) r =>
        if r.err.isNone then
          (acc.1 + 1, if acc.2 = "" then r.etag else acc.2)
        else acc)
      (n, "")).2 = (firstSuccessEtag rs).getD "" := by
  induction rs generalizing n with
  | nil => rfl
  | cons r rs ih =>
      cases herr : r.err with
      | none =>
          have hr : r.etag ≠ "" := hne r (by simp) (by simp [herr])
          simp only [List.foldl_cons, herr, Option.isNone_none, if_true]
          rw [clusterPut_foldl_etag_ne _ _ _ hr]
          simp [firstSuccessEtag, List.find?_cons, herr]
      | some s =>
          simp only [List.foldl_cons, herr, Option.isNone_some, Bool.false_eq_true,
            if_false]
          rw [ih _ (fun x hx => hne x (by simp [hx]))]
          simp [firstSuccessEtag, List.find?_cons, herr]

lemma goItoa_no_letter (n : Nat) : 'B' ∉ (goItoa n).data := by
  intro h
  have := natToChars_isDigit n 'B' h
  simp [Char.isDigit] at this

lemma putErrorCode_quorum (a b : Nat) :
    putErrorCode ("write quorum not met: " ++ goItoa a ++ "/" ++ goItoa b)
      = "InternalError" := by
  have hmem : 'B' ∈ ("BadDigest" : String).data := by decide
  have hmiss :
      'B' ∉ ("write quorum not met: " ++ goItoa a ++ "/" ++ goItoa b).data := by
    intro h
    simp only [String.data_append, List.mem_append] at h
    rcases h with ((h | h) | h) | h
    · exact absurd h (by decide)
    · exact goItoa_no_letter a h
    · exact absurd h (by decide)
    · exact goItoa_no_letter b h
  unfold putErrorCode goContains
  rw [occursIn_false_of_missing_char hmem hmiss]
  rfl

lemma clusterPutResolve_eq (w : Nat) (rs : List PutNodeResult)
    (hne : ∀ r ∈ rs, r.err.isNone → r.etag ≠ "") :
    clusterPutResolve w rs =
      if countPutSuccesses rs < w then
        .error ("write quorum not met: " ++ goItoa (countPutSuccesses rs)
          ++ "/" ++ goItoa w)
      else
        .ok ((firstSuccessEtag rs).getD "") := by
  have hcnt := clusterPut_foldl_count rs 0 ""
  rw [Nat.zero_add] at hcnt
  have het := clusterPut_foldl_etag rs 0 hne
  simp only [clusterPutResolve]
  rw [hcnt, het]

/-- C1: a replicated Put resolves to success exactly when at least W of the
N per-node Puts succeed; on success the returned ETag is the first
successful node's ETag (all node ETags of successful acks being non-empty);
when fewer than W acks succeed after all N complete, the error says the
write quorum was not met and the gateway renders it as `InternalError`. -/
theorem clusterPut_write_quorum_C1 (w : Nat) (rs : List PutNodeResult)
    (hne : ∀ r ∈ rs, r.err.isNone → r.etag ≠ "") :
    ((∃ e, clusterPutResolve w rs = .ok e) ↔ w ≤ countPutSuccesses rs) ∧
    (w ≤ countPutSuccesses rs →
      clusterPutResolve w rs = .ok ((firstSuccessEtag rs).getD "")) ∧
    (countPutSuccesses rs < w →
      clusterPutResolve w rs =
        .error ("write quorum not met: " ++ goItoa (countPutSuccesses rs)
          ++ "/" ++ goItoa w) ∧
      putErrorCode ("write quorum not met: " ++ goItoa (countPutSuccesses rs)
          ++ "/" ++ goItoa w) = "InternalError") := by
  have heq := clusterPutResolve_eq w rs hne
  by_cases hlt : countPutSuccesses rs < w
  · rw [if_pos hlt] at heq
    refine ⟨⟨fun ⟨e, he⟩ => ?_, fun h => absurd h (by omega)⟩,
      fun h => absurd h (by omega), fun _ => ⟨heq, putErrorCode_quorum _ _⟩⟩
    rw [heq] at he
    cases he
  · rw [if_neg hlt] at heq
    exact ⟨⟨fun _ => by omega, fun _ => ⟨_, heq⟩⟩, fun _ => heq,
      fun h => absurd h hlt⟩

/-- Witness for C1 at a concrete fan-out: N=3 nodes, W=2, two acks. -/
theorem clusterPut_write_quorum_C1_witness :
    ((∃ e, clusterPutResolve 2 examplePutResults = .ok e) ↔
      2 ≤ countPutSuccesses examplePutResults) ∧
    (2 ≤ countPutSuccesses examplePutResults →
      clusterPutResolve 2 examplePutResults =
        .ok ((firstSuccessEtag examplePutResults).getD "")) ∧
    (countPutSuccesses examplePutResults < 2 →
      clusterPutResolve 2 examplePutResults =
        .error ("write quorum not met: "
          ++ goItoa (countPutSuccesses examplePutResults) ++ "/" ++ goItoa 2) ∧
      putErrorCode ("write quorum not met: "
          ++ goItoa (countPutSuccesses examplePutResults) ++ "/" ++ goItoa 2)
        = "InternalError") :=
  clusterPut_write_quorum_C1 2 examplePutResults (by decide)

/-- C2 (counterexample): with every replica failing with a non-404 error
(HTTP 500), the cluster read still resolves to `NoSuchKey` with status 404
even though no replica reported 404 — refuting "NoSuchKey only when every
replica reports 404". -/
theorem clusterGet_notFound_counterexample_C2 :
    clusterGetResolve exampleGetResults = .notFound ∧
    clusterGetStatus (clusterGetResolve exampleGetResults) = 404 ∧
    ¬(∀ r ∈ exampleGetResults, r.status = 404) := by
  refine ⟨by decide, by decide, ?_⟩
  intro h
  have := h ⟨"", "", 0, 500, some "GET failed: 500"⟩ (by decide)
  simp at this

/-- C2 (amended): the cluster read resolves to `NoSuchKey` (status 404)
exactly when no replica returns a non-404 success — i.e. every replica
either reports 404 or fails with an error (of any status); otherwise it
returns the first non-404 successful replica response. -/
theorem clusterGet_notFound_C2 (rs : List GetNodeResult) :
    (clusterGetResolve rs = .notFound ↔
      ∀ r ∈ rs, ¬(r.err = none ∧ r.status ≠ 404)) ∧
    (∀ r, clusterGetResolve rs = .success r →
      r ∈ rs ∧ r.err = none ∧ r.status ≠ 404) ∧
    clusterGetStatus ClusterGetOutcome.notFound = 404 := by
  unfold clusterGetResolve
  cases hf : rs.find? (fun r => r.err.isNone && r.status != 404) with
  | none =>
      have hall := List.find?_eq_none.mp hf
      refine ⟨⟨fun _ => ?_, fun _ => rfl⟩, ⟨fun r hr => ?_, rfl⟩⟩
      · intro r hrmem hcontra
        have := hall r hrmem
        simp [hcontra.1, hcontra.2] at this
      · exact absurd hr (by intro h; cases h)
  | some r =>
      have hp := List.find?_some hf
      have hmem := List.mem_of_find?_eq_some hf
      simp only [Bool.and_eq_true, Option.isNone_iff_eq_none, bne_iff_ne,
        ne_eq] at hp
      refine ⟨⟨fun h => ?_, fun h => absurd ⟨hp.1, hp.2⟩ (h r hmem)⟩,
        ⟨fun r' hr' => ?_, rfl⟩⟩
      · exact absurd h (by intro h'; cases h')
      · cases hr'
        exact ⟨hmem, hp.1, hp.2⟩

/-- Witness for C2's amended statement at a concrete fan-out. -/
theorem clusterGet_notFound_C2_witness :
    (clusterGetResolve exampleGetResults2 = .notFound ↔
      ∀ r ∈ exampleGetResults2, ¬(r.err = none ∧ r.status ≠ 404)) ∧
    (∀ r, clusterGetResolve exampleGetResults2 = .success r →
      r ∈ exampleGetResults2 ∧ r.err = none ∧ r.status ≠ 404) ∧
    clusterGetStatus ClusterGetOutcome.notFound = 404 :=
  clusterGet_notFound_C2 exampleGetResults2

/-! ### Node Put: Content-MD5 handling (C5) -/

lemma lookupBK_setBK {α : Type} (l : List ((String × String) × α))
    (b k : String) (v : α) : lookupBK (setBK l b k v) b k = some v := by
  simp [lookupBK, setBK, List.find?]

/-- C5 (counterexample): a node Put whose `Content-MD5` header equals the
lowercase hex (not base64) encoding of the body digest succeeds, refuting
"succeeds only when the base64 encoding of md5(body) equals the header". -/
theorem localPut_hex_counterexample_C5 :
    (localPut md5Zero emptyFS "b" "k" [97, 98, 99] "text/plain"
        (hexEncode (md5Zero [97, 98, 99]))).1
      = .ok (quote (hexEncode (md5Zero [97, 98, 99]))) ∧
    base64Encode (md5Zero [97, 98, 99]) ≠ hexEncode (md5Zero [97, 98, 99]) := by
  constructor
  · rfl
  · decide

/-- C5 (amended): a node Put with a supplied `Content-MD5` header succeeds
exactly when the header equals the lowercase hex encoding of md5(body); on
success the stored ETag is the quoted hex digest and the payload and
sidecar become visible; on mismatch the Put fails with `BadDigest`, the
temp file is deleted and the directory state is unchanged. -/
theorem localPut_content_md5_C5 (md5f : Bytes → Bytes) (st : FSState)
    (b k : String) (body : Bytes) (ct h : String) (hh : h ≠ "") :
    ((∃ e, (localPut md5f st b k body ct h).1 = .ok e) ↔
      h = hexEncode (md5f body)) ∧
    (h = hexEncode (md5f body) →
      localPut md5f st b k body ct h =
        (.ok (quote (hexEncode (md5f body))),
         { objects := setBK st.objects b k body
           metas := setBK st.metas b k
             ⟨ct, quote (hexEncode (md5f body)), body.length⟩
           tmpCount := st.tmpCount }) ∧
      lookupBK (setBK st.objects b k body) b k = some body ∧
      lookupBK (setBK st.metas b k
          ⟨ct, quote (hexEncode (md5f body)), body.length⟩) b k =
        some ⟨ct, quote (hexEncode (md5f body)), body.length⟩) ∧
    (h ≠ hexEncode (md5f body) →
      localPut md5f st b k body ct h = (.error "BadDigest", st)) := by
  by_cases heq : h = hexEncode (md5f body)
  · have hres : localPut md5f st b k body ct h =
        (.ok (quote (hexEncode (md5f body))),
         { objects := setBK st.objects b k body
           metas := setBK st.metas b k
             ⟨ct, quote (hexEncode (md5f body)), body.length⟩
           tmpCount := st.tmpCount }) := by
      unfold localPut
      rw [if_neg (by simp [heq])]
      subst heq
      rfl
    refine ⟨⟨fun _ => heq, fun _ => ⟨_, by rw [hres]⟩⟩,
      fun _ => ⟨hres, lookupBK_setBK _ _ _ _, lookupBK_setBK _ _ _ _⟩,
      fun hne => absurd heq hne⟩
  · have hres : localPut md5f st b k body ct h = (.error "BadDigest", st) := by
      obtain ⟨o, m, t⟩ := st
      unfold localPut
      rw [if_pos ⟨hh, heq⟩]
      rfl
    refine ⟨⟨fun ⟨e, he⟩ => ?_, fun hc => absurd hc heq⟩,
      fun hc => absurd hc heq, fun _ => hres⟩
    rw [hres] at he
    cases he

/-- Witness for C5's amended statement: the zero digest in hex. -/
theorem localPut_content_md5_C5_witness :
    ((∃ e, (localPut md5Zero emptyFS "b" "k" [97, 98, 99] "text/plain"
        "00000000000000000000000000000000").1 = .ok e) ↔
      "00000000000000000000000000000000" = hexEncode (md5Zero [97, 98, 99])) ∧
    ("00000000000000000000000000000000" = hexEncode (md5Zero [97, 98, 99]) →
      localPut md5Zero emptyFS "b" "k" [97, 98, 99] "text/plain"
          "00000000000000000000000000000000" =
        (.ok (quote (hexEncode (md5Zero [97, 98, 99]))),
         { objects := setBK emptyFS.objects "b" "k" [97, 98, 99]
           metas := setBK emptyFS.metas "b" "k"
             ⟨"text/plain", quote (hexEncode (md5Zero [97, 98, 99])), 3⟩
           tmpCount := emptyFS.tmpCount }) ∧
      lookupBK (setBK emptyFS.objects "b" "k" [97, 98, 99]) "b" "k" =
        some [97, 98, 99] ∧
      lookupBK (setBK emptyFS.metas "b" "k"
          ⟨"text/plain", quote (hexEncode (md5Zero [97, 98, 99])), 3⟩) "b" "k" =
        some ⟨"text/plain", quote (hexEncode (md5Zero [97, 98, 99])), 3⟩) ∧
    ("00000000000000000000000000000000" ≠ hexEncode (md5Zero [97, 98, 99]) →
      localPut md5Zero emptyFS "b" "k" [97, 98, 99] "text/plain"
          "00000000000000000000000000000000" = (.error "BadDigest", emptyFS)) :=
  localPut_content_md5_C5 md5Zero emptyFS "b" "k" [97, 98, 99] "text/plain"
    "00000000000000000000000000000000" (by decide)

/-! ### Range parser and range reads (C6) -/

lemma hasLead_append (p r : List Char) : hasLead p (p ++ r) = true := by
  induction p with
  | nil => rfl
  | cons c cs ih => simp [hasLead, ih]

lemma splitOnDash_no_dash {cs : List Char} (h : '-' ∉ cs) :
    splitOnDash cs = [cs] := by
  induction cs with
  | nil => rfl
  | cons c cs ih =>
      have hc : c ≠ '-' := fun hc => h (by simp [hc])
      have := ih (fun hm => h (List.mem_cons_of_mem _ hm))
      simp [splitOnDash, this, hc]

lemma splitOnDash_cons_append {sa : List Char} (sb : List Char)
    (h : '-' ∉ sa) : splitOnDash (sa ++ '-' :: sb) = sa :: splitOnDash sb := by
  induction sa with
  | nil =>
      simp only [List.nil_append, splitOnDash]
      cases hs : splitOnDash sb with
      | nil =>
          exfalso
          induction sb with
          | nil => simp [splitOnDash] at hs
          | cons x xs ihx =>
              rw [splitOnDash] at hs
              rcases hsp : splitOnDash xs with _ | ⟨r, rs⟩
              · exact ihx hsp
              · rw [hsp] at hs
                by_cases hx : x = '-' <;> simp [hx] at hs
      | cons r rs => simp
  | cons c cs ih =>
      have hc : c ≠ '-' := fun hc => h (by simp [hc])
      have hrest := ih (fun hm => h (List.mem_cons_of_mem _ hm))
      simp only [List.cons_append, splitOnDash, List.append_eq, hrest, hc,
        if_false]

lemma checkRange_ok {s e size a b : Int}
    (h : checkRange s e size = .ok (a, b)) :
    a = s ∧ b = e ∧ 0 ≤ a ∧ a ≤ b ∧ b < size := by
  unfold checkRange at h
  split at h
  · cases h
  · rename_i hcond
    cases h
    push_neg at hcond
    exact ⟨rfl, rfl, hcond.1, hcond.2.2, hcond.2.1⟩

lemma parseRange_app (rest : List Char) (size : Int) :
    parseRange ("bytes=".data ++ rest) size =
      match splitOnDash rest with
      | [p0, p1] =>
          if p0.isEmpty then
            if p1.isEmpty then .error "invalid range"
            else
              let suffix : Int := scanNat p1
              let start0 := size - suffix
              let start := if start0 < 0 then 0 else start0
              checkRange start (size - 1) size
          else if p1.isEmpty then
            checkRange (scanNat p0) (size - 1) size
          else
            checkRange (scanNat p0) (scanNat p1) size
      | _ => .error "invalid range" := by
  unfold parseRange
  rw [if_neg (show ¬(hasLead "bytes=".data ("bytes=".data ++ rest) = false) by
    rw [hasLead_append]; simp)]
  rw [show (6 : Nat) = ("bytes=".data).length from rfl, List.drop_left]

lemma parseRange_ok_bounds {spec : List Char} {size a b : Int}
    (h : parseRange spec size = .ok (a, b)) :
    0 ≤ a ∧ a ≤ b ∧ b < size := by
  unfold parseRange at h
  split at h
  · cases h
  · split at h
    · split at h
      · split at h
        · cases h
        · have := checkRange_ok h
          exact ⟨this.2.2.1, this.2.2.2.1, this.2.2.2.2⟩
      · split at h
        · have := checkRange_ok h
          exact ⟨this.2.2.1, this.2.2.2.1, this.2.2.2.2⟩
        · have := checkRange_ok h
          exact ⟨this.2.2.1, this.2.2.2.1, this.2.2.2.2⟩
    · cases h

lemma splitOnDash_ne_nil (cs : List Char) : splitOnDash cs ≠ [] := by
  induction cs with
  | nil => simp [splitOnDash]
  | cons c cs ih =>
      rw [splitOnDash]
      cases hs : splitOnDash cs with
      | nil => exact absurd hs ih
      | cons r rs => by_cases hc : c = '-' <;> simp [hc]

/-- C6 (counterexample): the range parser does not reject every string
outside the three documented forms — the garbage range `bytes=abc-def` is
accepted as the byte range `[0, 0]` (Sscanf's failed scans silently leave
0) — and for a valid range the gateway's `Content-Range` header is
`"bytes " ++ rawSpec` (e.g. `bytes bytes=2-5`), not `bytes 2-5/*`. -/
theorem parseRange_counterexample_C6 :
    parseRange "bytes=abc-def".data 10 = .ok (0, 0) ∧
    gatewayContentRange "bytes=2-5" ≠ "bytes 2-5/*" := by
  constructor
  · rfl
  · decide

/-- C6 (amended): strings without the `bytes=` lead, or whose remainder
does not contain exactly one `-` (zero dashes, or two or more dashes), are
rejected; strings `bytes=p0-p1` are scanned leniently (a failed numeric
scan yields 0) and then bounds-checked, so exactly the satisfiable results
`0 ≤ a ≤ b < size` are accepted (an out-of-range request is rejected,
surfacing 416); a valid range read serves exactly `body[a..=b]` (length
`b-a+1`) with status 206; the node formats `Content-Range` as
`bytes a-b/*` while the gateway emits `bytes <rawSpec>`. -/
theorem rangeParser_C6 :
    (∀ spec size, hasLead "bytes=".data spec = false →
        parseRange spec size = .error "invalid range") ∧
    (∀ sa sb size, '-' ∉ sa → '-' ∉ sb → sa ≠ [] → sb ≠ [] →
        parseRange ("bytes=".data ++ sa ++ '-' :: sb) size =
          checkRange (scanNat sa) (scanNat sb) size) ∧
    (∀ sa size, '-' ∉ sa → sa ≠ [] →
        parseRange ("bytes=".data ++ sa ++ ['-']) size =
          checkRange (scanNat sa) (size - 1) size) ∧
    (∀ sb size, '-' ∉ sb → sb ≠ [] →
        parseRange ("bytes=".data ++ '-' :: sb) size =
          checkRange
            (if size - (scanNat sb : Int) < 0 then 0
              else size - (scanNat sb : Int)) (size - 1) size) ∧
    (∀ size, parseRange "bytes=-".data size = .error "invalid range") ∧
    (∀ spec size a b, parseRange spec size = .ok (a, b) →
        0 ≤ a ∧ a ≤ b ∧ b < size) ∧
    (∀ st bu k body meta rangeSpec a e,
        lookupBK st.metas bu k = some meta →
        lookupBK st.objects bu k = some body →
        body.length = meta.size →
        rangeSpec ≠ "" →
        parseRange rangeSpec.data (meta.size : Int) = .ok (a, e) →
        localGet st bu k rangeSpec =
          .ok ((body.drop a.toNat).take (e - a + 1).toNat)
            meta.contentType meta.etag (e - a + 1) 206 ∧
        ((body.drop a.toNat).take (e - a + 1).toNat).length =
          (e - a + 1).toNat) ∧
    (∀ spec, gatewayContentRange spec = "bytes " ++ spec) ∧
    (∀ t, nodeContentRange (String.mk ("bytes=".data ++ t)) =
        "bytes " ++ String.mk t ++ "/*") ∧
    (∀ rest size, '-' ∉ rest →
        parseRange ("bytes=".data ++ rest) size = .error "invalid range") ∧
    (∀ sa sb sc size, '-' ∉ sa → '-' ∉ sb →
        parseRange ("bytes=".data ++ sa ++ '-' :: sb ++ '-' :: sc) size =
          .error "invalid range") := by
  refine ⟨?_, ?_, ?_, ?_, ?_, ?_, ?_, ?_, ?_, ?_, ?_⟩
  · intro spec size hlead
    unfold parseRange
    rw [if_pos hlead]
  · intro sa sb size hda hdb hna hnb
    rw [List.append_assoc] at *
    rw [parseRange_app, splitOnDash_cons_append sb hda,
      splitOnDash_no_dash hdb]
    simp only [List.isEmpty_iff, hna, if_false, hnb, if_false]
  · intro sa size hda hna
    rw [List.append_assoc, parseRange_app,
      show sa ++ ['-'] = sa ++ '-' :: [] from rfl,
      splitOnDash_cons_append [] hda, splitOnDash_no_dash (by simp)]
    simp only [List.isEmpty_iff, hna, if_false, if_true]
  · intro sb size hdb hnb
    rw [show ('-' :: sb : List Char) = [] ++ '-' :: sb from rfl,
      parseRange_app, splitOnDash_cons_append sb (by simp),
      splitOnDash_no_dash hdb]
    simp only [List.isEmpty_iff, hnb, if_false]
    rfl
  · intro size
    rw [show ("bytes=-".data : List Char) = "bytes=".data ++ '-' :: [] from
        rfl,
      parseRange_app]
    rfl
  · intro spec size a b h
    exact parseRange_ok_bounds h
  · intro st bu k body meta rangeSpec a e hm ho hlen hne hp
    have hb := parseRange_ok_bounds hp
    have hres : localGet st bu k rangeSpec =
        .ok ((body.drop a.toNat).take (e - a + 1).toNat)
          meta.contentType meta.etag (e - a + 1) 206 := by
      unfold localGet
      rw [hm, ho]
      dsimp only
      rw [if_neg hne, hp]
    refine ⟨hres, ?_⟩
    rw [List.length_take, List.length_drop, hlen]
    omega
  · intro spec
    rfl
  · intro t
    unfold nodeContentRange
    rw [if_pos (hasLead_append _ _),
      show (6 : Nat) = ("bytes=".data).length from rfl, List.drop_left]
  · intro rest size hnd
    rw [parseRange_app, splitOnDash_no_dash hnd]
  · intro sa sb sc size hda hdb
    rw [List.append_assoc, List.append_assoc]
    show parseRange ("bytes=".data ++ (sa ++ '-' :: (sb ++ '-' :: sc))) size =
      .error "invalid range"
    rw [parseRange_app, splitOnDash_cons_append (sb ++ '-' :: sc) hda,
      splitOnDash_cons_append sc hdb]
    cases hsc : splitOnDash sc with
    | nil => exact absurd hsc (splitOnDash_ne_nil sc)
    | cons r rs => rfl

/-- Witness for C6's amended statement: `bytes=2-5` over "0123456789". -/
theorem rangeParser_C6_witness :
    parseRange ("bytes=".data ++ ['2'] ++ '-' :: ['5']) 10 =
      checkRange (scanNat ['2']) (scanNat ['5']) 10 ∧
    localGet exampleFS "b" "k" "bytes=2-5" =
      .ok ((exampleBody.drop (2 : Int).toNat).take
          ((5 : Int) - 2 + 1).toNat) "text/plain" "\"e\"" ((5 : Int) - 2 + 1)
        206 ∧
    nodeContentRange (String.mk ("bytes=".data ++ "2-5".data)) =
      "bytes " ++ String.mk "2-5".data ++ "/*" := by
  have h := rangeParser_C6
  refine ⟨h.2.1 ['2'] ['5'] 10 (by decide) (by decide) (by decide) (by decide),
    ?_, h.2.2.2.2.2.2.2.2.1 "2-5".data⟩
  exact (h.2.2.2.2.2.2.1 exampleFS "b" "k" exampleBody
    ⟨"text/plain", "\"e\"", 10⟩ "bytes=2-5" 2 5 (by rfl) (by rfl) (by rfl)
    (by decide) (by rfl)).1

/-! ### Erasure-coded reads and writes (C7, C10) -/

/-- C7 (code evaluation at the failing input): an erasure-coded Get of the
10-byte object "0123456789" (k=2, m=1, all shards present) with
`Range: bytes=2-5` returns the ENTIRE payload with status 200 — the range
is never applied (part_007:690-696 only logs a warning), contradicting the
claim (and the code's own comment) that the range is applied to the
reconstructed payload with partial-content status. -/
theorem ecGet_range_ignored_C7 :
    ecGet 2 recoverPresent (some ⟨2, 1, 10, "text/plain", "cafef00d"⟩)
        ((rsSplit 2 1 exampleBody).map some) "bytes=2-5" =
      .ok (exampleBody, "text/plain", quote "cafef00d", 10, 200) ∧
    (exampleBody.drop 2).take 4 ≠ exampleBody ∧
    (200 : Nat) ≠ 206 := by
  exact ⟨rfl, by decide, by decide⟩

/-- C10: an erasure-coded Put succeeds exactly when no shard or manifest
upload errored, and then returns the ETag `quote(contentMD5)` — the
client-supplied Content-MD5 string wrapped in double quotes — records that
string as the manifest checksum, and `Head` later serves the same quoted
string; with no Content-MD5 supplied the ETag is the empty quoted string
`""`. -/
theorem ecPut_etag_C10 (k m : Nat) (enc : List Bytes → List Bytes)
    (data : Bytes) (ct cmd5 : String) (errs : List (Option String)) :
    ((∃ res, ecPut k m enc data ct cmd5 errs = .ok res) ↔
      errs.filterMap id = []) ∧
    (∀ res, ecPut k m enc data ct cmd5 errs = .ok res →
      res.1 = quote cmd5 ∧
      res.2.1 = ⟨k, m, data.length, ct, cmd5⟩ ∧
      ecHead (some res.2.1) = some (ct, quote cmd5, data.length)) ∧
    (cmd5 = "" → quote cmd5 = "\"\"") := by
  have hmain : ecPut k m enc data ct cmd5 errs =
      match errs.filterMap id with
      | e :: _ => .error e
      | [] => .ok (quote cmd5, ⟨k, m, data.length, ct, cmd5⟩,
          (rsSplit k m data).take k ++ enc ((rsSplit k m data).take k)) := rfl
  cases hf : errs.filterMap id with
  | nil =>
      rw [hf] at hmain
      refine ⟨⟨fun _ => rfl, fun _ => ⟨_, hmain⟩⟩, fun res hres => ?_,
        fun h => by rw [h]; rfl⟩
      rw [hmain] at hres
      cases hres
      exact ⟨rfl, rfl, rfl⟩
  | cons e es =>
      rw [hf] at hmain
      refine ⟨⟨fun ⟨res, hres⟩ => ?_, fun h => ?_⟩, fun res hres => ?_,
        fun h => by rw [h]; rfl⟩
      · rw [hmain] at hres
        cases hres
      · cases h
      · rw [hmain] at hres
        cases hres

/-- Witness for C10: k=2, m=1, four clean uploads, no Content-MD5. -/
theorem ecPut_etag_C10_witness :
    ((∃ res, ecPut 2 1 (fun _ => [List.replicate 5 0]) exampleBody
        "text/plain" "" [none, none, none, none] = .ok res) ↔
      ([none, none, none, none] : List (Option String)).filterMap id = []) ∧
    (∀ res, ecPut 2 1 (fun _ => [List.replicate 5 0]) exampleBody
        "text/plain" "" [none, none, none, none] = .ok res →
      res.1 = quote "" ∧
      res.2.1 = ⟨2, 1, exampleBody.length, "text/plain", ""⟩ ∧
      ecHead (some res.2.1) = some ("text/plain", quote "",
        exampleBody.length)) ∧
    (("" : String) = "" → quote "" = "\"\"") :=
  ecPut_etag_C10 2 1 (fun _ => [List.replicate 5 0]) exampleBody
    "text/plain" "" [none, none, none, none]

/-! ### Placement ring (C8) -/

lemma collectDistinct_sub {y : String} :
    ∀ {n : Nat} {seen xs : List String},
      y ∈ collectDistinct n seen xs → y ∈ xs := by
  intro n seen xs
  induction xs generalizing n seen with
  | nil => intro h; cases h
  | cons x xs ih =>
      intro h
      rw [collectDistinct] at h
      split at h
      · cases h
      · split at h
        · exact List.mem_cons_of_mem _ (ih h)
        · rcases List.mem_cons.mp h with rfl | h'
          · simp
          · exact List.mem_cons_of_mem _ (ih h')

lemma collectDistinct_not_seen {y : String} :
    ∀ {n : Nat} {seen xs : List String},
      y ∈ collectDistinct n seen xs → y ∉ seen := by
  intro n seen xs
  induction xs generalizing n seen with
  | nil => intro h; cases h
  | cons x xs ih =>
      intro h
      rw [collectDistinct] at h
      split at h
      · cases h
      · split at h
        · exact ih h
        · rcases List.mem_cons.mp h with rfl | h'
          · assumption
          · intro hy
            exact ih h' (List.mem_cons_of_mem _ hy)

lemma collectDistinct_nodup :
    ∀ {n : Nat} {seen xs : List String},
      (collectDistinct n seen xs).Nodup := by
  intro n seen xs
  induction xs generalizing n seen with
  | nil => exact List.nodup_nil
  | cons x xs ih =>
      rw [collectDistinct]
      split
      · exact List.nodup_nil
      · split
        · exact ih
        · refine List.nodup_cons.mpr ⟨fun hx => ?_, ih⟩
          exact collectDistinct_not_seen hx (by simp)

lemma collectDistinct_length :
    ∀ {n : Nat} {seen xs : List String},
      (collectDistinct n seen xs).length =
        min n (xs.toFinset \ seen.toFinset).card := by
  intro n seen xs
  induction xs generalizing n seen with
  | nil => simp [collectDistinct]
  | cons x xs ih =>
      rw [collectDistinct]
      by_cases hn : n = 0
      · subst hn
        simp
      · rw [if_neg hn]
        by_cases hx : x ∈ seen
        · rw [if_pos hx, ih, List.toFinset_cons,
            Finset.insert_sdiff_of_mem _ (List.mem_toFinset.mpr hx)]
        · rw [if_neg hx]
          have hxs : x ∉ seen.toFinset := fun hc => hx (List.mem_toFinset.mp hc)
          rw [List.length_cons, ih, List.toFinset_cons, List.toFinset_cons,
            Finset.insert_sdiff_of_not_mem _ hxs, Finset.sdiff_insert]
          have hins : (insert x (xs.toFinset \ seen.toFinset)).card =
              ((xs.toFinset \ seen.toFinset).erase x).card + 1 := by
            by_cases hxS : x ∈ xs.toFinset \ seen.toFinset
            · rw [Finset.insert_eq_self.mpr hxS, Finset.card_erase_of_mem hxS]
              have : 1 ≤ (xs.toFinset \ seen.toFinset).card :=
                Finset.card_pos.mpr ⟨x, hxS⟩
              omega
            · rw [Finset.card_insert_of_not_mem hxS,
                Finset.erase_eq_of_not_mem hxS]
          rw [hins]
          omega

lemma collectDistinct_complete {y : String} :
    ∀ {n : Nat} {seen xs : List String},
      (xs.toFinset \ seen.toFinset).card ≤ n → y ∈ xs → y ∉ seen →
      y ∈ collectDistinct n seen xs := by
  intro n seen xs
  induction xs generalizing n seen with
  | nil => intro _ hy; cases hy
  | cons x xs ih =>
      intro hcard hy hseen
      have hy0 : y ∈ (x :: xs).toFinset \ seen.toFinset := by
        simp only [Finset.mem_sdiff, List.mem_toFinset]
        exact ⟨hy, fun hc => hseen hc⟩
      have hpos : 1 ≤ ((x :: xs).toFinset \ seen.toFinset).card :=
        Finset.card_pos.mpr ⟨y, hy0⟩
      have hn : n ≠ 0 := by omega
      rw [collectDistinct, if_neg hn]
      by_cases hx : x ∈ seen
      · rw [if_pos hx]
        have hyx : y ≠ x := fun hc => hseen (hc ▸ hx)
        have hy' : y ∈ xs := by
          rcases List.mem_cons.mp hy with rfl | h
          · exact absurd rfl hyx
          · exact h
        refine ih ?_ hy' hseen
        rw [List.toFinset_cons,
          Finset.insert_sdiff_of_mem _ (List.mem_toFinset.mpr hx)] at hcard
        exact hcard
      · rw [if_neg hx]
        rcases eq_or_ne y x with rfl | hyx
        · simp
        · have hy' : y ∈ xs := by
            rcases List.mem_cons.mp hy with rfl | h
            · exact absurd rfl hyx
            · exact h
          have hseen' : y ∉ x :: seen := by
            intro hc
            rcases List.mem_cons.mp hc with rfl | hc'
            · exact hyx rfl
            · exact hseen hc'
          refine List.mem_cons_of_mem _ (ih ?_ hy' hseen')
          have hxs : x ∉ seen.toFinset :=
            fun hc => hx (List.mem_toFinset.mp hc)
          rw [List.toFinset_cons, Finset.insert_sdiff_of_not_mem _ hxs] at hcard
          rw [List.toFinset_cons, Finset.sdiff_insert]
          have hins : (insert x (xs.toFinset \ seen.toFinset)).card =
              ((xs.toFinset \ seen.toFinset).erase x).card + 1 := by
            by_cases hxS : x ∈ xs.toFinset \ seen.toFinset
            · rw [Finset.insert_eq_self.mpr hxS, Finset.card_erase_of_mem hxS]
              have : 1 ≤ (xs.toFinset \ seen.toFinset).card :=
                Finset.card_pos.mpr ⟨x, hxS⟩
              omega
            · rw [Finset.card_insert_of_not_mem hxS,
                Finset.erase_eq_of_not_mem hxS]
          omega

lemma ringPoints_mem_iff {hash : String → Nat → Nat} {ns : List String}
    {e : Nat × String} :
    e ∈ ringPoints hash ns ↔
      ∃ nd ∈ ns, ∃ i < virtualNodes, e = (hash nd i, nd) := by
  unfold ringPoints
  rw [List.mem_flatMap]
  constructor
  · rintro ⟨nd, hnd, he⟩
    rw [List.mem_map] at he
    obtain ⟨i, hi, rfl⟩ := he
    exact ⟨nd, hnd, i, List.mem_range.mp hi, rfl⟩
  · rintro ⟨nd, hnd, i, hi, rfl⟩
    exact ⟨nd, hnd, List.mem_map.mpr ⟨i, List.mem_range.mpr hi, rfl⟩⟩

lemma mapLookup_ringPoints {hash : String → Nat → Nat} {ns : List String}
    (hinj : ∀ a ∈ ns, ∀ b ∈ ns, ∀ i ∈ List.range virtualNodes,
      ∀ j ∈ List.range virtualNodes, hash a i = hash b j → a = b ∧ i = j)
    {nd : String} (hnd : nd ∈ ns) {i : Nat} (hi : i < virtualNodes) :
    mapLookup (ringPoints hash ns) (hash nd i) = nd := by
  unfold mapLookup
  have hmem : ((hash nd i, nd) : Nat × String) ∈ (ringPoints hash ns).reverse :=
    List.mem_reverse.mpr (ringPoints_mem_iff.mpr ⟨nd, hnd, i, hi, rfl⟩)
  have hsome :
      ((ringPoints hash ns).reverse.find?
        (fun e => e.1 = hash nd i)).isSome = true := by
    rw [List.find?_isSome]
    exact ⟨_, hmem, by simp⟩
  obtain ⟨e, he⟩ := Option.isSome_iff_exists.mp hsome
  rw [he]
  have hpe := List.find?_some he
  have hme := List.mem_of_find?_eq_some he
  rw [List.mem_reverse] at hme
  obtain ⟨a, ha, j, hj, rfl⟩ := ringPoints_mem_iff.mp hme
  simp only [decide_eq_true_eq] at hpe
  exact (hinj a ha nd hnd j (List.mem_range.mpr hj) i
    (List.mem_range.mpr hi) hpe).1

/-- C8: for every key and every `n ≥ 1`, `GetNodes` over a ring built from
a duplicate-free node set with collision-free virtual points returns a
duplicate-free list of `min n |nodes|` nodes drawn from the node set; when
`n` reaches or exceeds the node count every node is returned; and the
(pure) lookup is deterministic for a fixed node set. -/
theorem getNodes_C8 (hash : String → Nat → Nat) (ns : List String)
    (key : String) (n : Nat) (hne : ns ≠ []) (hnd : ns.Nodup)
    (hinj : ∀ a ∈ ns, ∀ b ∈ ns, ∀ i ∈ List.range virtualNodes,
      ∀ j ∈ List.range virtualNodes, hash a i = hash b j → a = b ∧ i = j)
    (hn1 : 1 ≤ n) :
    (getNodes hash (newHashRing hash ns) key n).Nodup ∧
    (getNodes hash (newHashRing hash ns) key n).length = min n ns.length ∧
    (∀ nd ∈ getNodes hash (newHashRing hash ns) key n, nd ∈ ns) ∧
    (ns.length ≤ n →
      ∀ nd ∈ ns, nd ∈ getNodes hash (newHashRing hash ns) key n) ∧
    getNodes hash (newHashRing hash ns) key n =
      getNodes hash (newHashRing hash ns) key n := by
  have h150 : 0 < virtualNodes := by norm_num [virtualNodes]
  have hniE : ¬((newHashRing hash ns).nodes.isEmpty = true) := by
    cases ns with
    | nil => exact absurd rfl hne
    | cons x xs => simp [newHashRing]
  have hex : ∃ I, getNodes hash (newHashRing hash ns) key n =
      collectDistinct (min n ns.length) []
        (((newHashRing hash ns).ring.rotate I).map
          (mapLookup (newHashRing hash ns).nodeMap)) := by
    unfold getNodes
    rw [if_neg hniE]
    exact ⟨_, rfl⟩
  obtain ⟨I, hI⟩ := hex
  have hRmap : (newHashRing hash ns).nodeMap = ringPoints hash ns := rfl
  have hcand_mem : ∀ y,
      y ∈ (((newHashRing hash ns).ring.rotate I).map
        (mapLookup (newHashRing hash ns).nodeMap)) → y ∈ ns := by
    intro y hy
    rw [List.mem_map] at hy
    obtain ⟨p, hp, rfl⟩ := hy
    have hp' : p ∈ (newHashRing hash ns).ring :=
      (List.rotate_perm _ _).mem_iff.mp hp
    have hp'' : p ∈ (ringPoints hash ns).map (·.1) :=
      (List.mergeSort_perm _ _).mem_iff.mp hp'
    rw [List.mem_map] at hp''
    obtain ⟨e, he, rfl⟩ := hp''
    obtain ⟨nd, hnd', i, hi, rfl⟩ := ringPoints_mem_iff.mp he
    rw [hRmap, mapLookup_ringPoints hinj hnd' hi]
    exact hnd'
  have hcand_all : ∀ nd, nd ∈ ns →
      nd ∈ (((newHashRing hash ns).ring.rotate I).map
        (mapLookup (newHashRing hash ns).nodeMap)) := by
    intro nd hnd'
    rw [List.mem_map]
    refine ⟨hash nd 0, ?_, by rw [hRmap, mapLookup_ringPoints hinj hnd' h150]⟩
    apply (List.rotate_perm _ _).mem_iff.mpr
    apply (List.mergeSort_perm _ _).mem_iff.mpr
    rw [List.mem_map]
    exact ⟨(hash nd 0, nd),
      ringPoints_mem_iff.mpr ⟨nd, hnd', 0, h150, rfl⟩, rfl⟩
  have hfin : (((newHashRing hash ns).ring.rotate I).map
      (mapLookup (newHashRing hash ns).nodeMap)).toFinset = ns.toFinset := by
    ext y
    simp only [List.mem_toFinset]
    exact ⟨hcand_mem y, hcand_all y⟩
  have hcard : (((newHashRing hash ns).ring.rotate I).map
      (mapLookup (newHashRing hash ns).nodeMap)).toFinset.card = ns.length := by
    rw [hfin]
    exact List.toFinset_card_of_nodup hnd
  refine ⟨?_, ?_, ?_, ?_, rfl⟩
  · rw [hI]
    exact collectDistinct_nodup
  · rw [hI, collectDistinct_length]
    simp only [List.toFinset_nil, Finset.sdiff_empty]
    rw [hcard]
    omega
  · intro nd hnd'
    rw [hI] at hnd'
    exact hcand_mem nd (collectDistinct_sub hnd')
  · intro hlen nd hnd'
    rw [hI]
    refine collectDistinct_complete ?_ (hcand_all nd hnd') (by simp)
    simp only [List.toFinset_nil, Finset.sdiff_empty]
    rw [hcard]
    omega

/-- Witness for C8: three nodes, collision-free points, `n = 5` exceeding
the node count. -/
theorem getNodes_C8_witness :
    (getNodes hashEx (newHashRing hashEx exampleNodes) "b/k" 5).Nodup ∧
    (getNodes hashEx (newHashRing hashEx exampleNodes) "b/k" 5).length =
      min 5 exampleNodes.length ∧
    (∀ nd ∈ getNodes hashEx (newHashRing hashEx exampleNodes) "b/k" 5,
      nd ∈ exampleNodes) ∧
    (exampleNodes.length ≤ 5 → ∀ nd ∈ exampleNodes,
      nd ∈ getNodes hashEx (newHashRing hashEx exampleNodes) "b/k" 5) ∧
    getNodes hashEx (newHashRing hashEx exampleNodes) "b/k" 5 =
      getNodes hashEx (newHashRing hashEx exampleNodes) "b/k" 5 := by
  refine getNodes_C8 hashEx exampleNodes "b/k" 5 (by decide) (by decide)
    ?_ (by decide)
  intro a ha b hb i hi j hj heq
  rw [List.mem_range] at hi hj
  have h150 : virtualNodes = 150 := rfl
  rw [h150] at hi hj
  unfold hashEx at heq
  simp only [exampleNodes, List.mem_cons, List.not_mem_nil, or_false] at ha hb
  rcases ha with rfl | rfl | rfl <;> rcases hb with rfl | rfl | rfl <;>
    simp only [show nodeIdx "n1" = 0 from rfl, show nodeIdx "n2" = 1 from rfl,
      show nodeIdx "n3" = 2 from rfl, h150] at heq <;>
    first
      | exact ⟨rfl, by omega⟩
      | exact absurd heq (by omega)

/-! ### Multipart Complete (C3, C4) -/

lemma getLastD_append_singleton {α : Type} (l : List α) (x d : α) :
    (l ++ [x]).getLastD d = x := by
  induction l generalizing d with
  | nil => rfl
  | cons a l ih =>
      rw [List.cons_append, List.getLastD_cons]
      exact ih a

lemma partMatches_true {md5f : Bytes → Bytes} {stored : List (Nat × Bytes)}
    {p : CompletePart} (h : partMatches md5f stored p = true) :
    ∃ bytes, lookupPart stored p.partNumber = some bytes ∧
      quote (hexEncode (md5f bytes)) = p.etag := by
  unfold partMatches at h
  cases hl : lookupPart stored p.partNumber with
  | none =>
      rw [hl] at h
      cases h
  | some bytes =>
      rw [hl] at h
      simp only [decide_eq_true_eq] at h
      exact ⟨bytes, rfl, h⟩

lemma validatePartsGo_through (md5f : Bytes → Bytes)
    (stored : List (Nat × Bytes)) :
    ∀ (pre : List CompletePart) (prevNum : Nat) (seen : List Nat),
      List.Pairwise (fun x y => x.partNumber < y.partNumber) pre →
      (∀ q ∈ pre, prevNum < q.partNumber) →
      (∀ q ∈ pre, partMatches md5f stored q = true) →
      (∀ n ∈ seen, n ≤ prevNum) →
      ∃ seen',
        (∀ rest, validatePartsGo md5f stored prevNum seen (pre ++ rest) =
          validatePartsGo md5f stored
            ((pre.map (·.partNumber)).getLastD prevNum) seen' rest) ∧
        (∀ n ∈ seen', n ≤ (pre.map (·.partNumber)).getLastD prevNum) := by
  intro pre
  induction pre with
  | nil =>
      intro prevNum seen _ _ _ hseen
      exact ⟨seen, fun rest => rfl, hseen⟩
  | cons q pre ih =>
      intro prevNum seen hpw hlow hmat hseen
      have hq : prevNum < q.partNumber := hlow q (List.mem_cons_self q pre)
      obtain ⟨bytes, hlk, hetag⟩ :=
        partMatches_true (hmat q (List.mem_cons_self q pre))
      have hrec := ih q.partNumber (q.partNumber :: seen)
        (List.pairwise_cons.mp hpw).2
        (fun p hp => (List.pairwise_cons.mp hpw).1 p hp)
        (fun p hp => hmat p (List.mem_cons_of_mem _ hp))
        (by
          intro n hn
          rcases List.mem_cons.mp hn with rfl | hn'
          · exact le_refl _
          · exact Nat.le_of_lt (Nat.lt_of_le_of_lt (hseen n hn') hq))
      obtain ⟨seen', hs1, hs2⟩ := hrec
      refine ⟨seen', ?_, ?_⟩
      · intro rest
        rw [List.cons_append]
        rw [validatePartsGo, if_neg (by omega),
          if_neg (fun hmem => absurd (hseen _ hmem) (by omega)), hlk]
        dsimp only
        rw [if_neg (fun hc => hc hetag)]
        rw [List.map_cons, List.getLastD_cons]
        exact hs1 rest
      · intro n hn
        rw [List.map_cons, List.getLastD_cons]
        exact hs2 n hn

/-- C3: a Complete with a non-empty, strictly increasing part list of
positive part numbers whose references all match staged entries validates
successfully and yields the payload equal to the concatenation of the
referenced parts in part-number order, with the composite ETag
`"<hex(md5(concat of the raw part MD5 bytes))>-<count>"`
(rate_limiter.go:417-475). -/
theorem multipartComplete_C3 (md5f : Bytes → Bytes)
    (stored : List (Nat × Bytes)) (ps : List CompletePart)
    (hne : ps ≠ [])
    (hch : List.Chain' (fun x y => x.partNumber < y.partNumber) ps)
    (hpos : ∀ p ∈ ps, 1 ≤ p.partNumber)
    (hmat : ∀ p ∈ ps, partMatches md5f stored p = true) :
    validateParts md5f stored ps = .ok () ∧
    completeMultipart md5f stored ps =
      .ok (ps.flatMap (fun p => (lookupPart stored p.partNumber).getD []),
        quote (hexEncode (md5f (ps.flatMap (fun p =>
          md5f ((lookupPart stored p.partNumber).getD [])))) ++ "-" ++
          goItoa ps.length)) := by
  have htrans : IsTrans CompletePart
      (fun x y => x.partNumber < y.partNumber) :=
    ⟨fun _ _ _ h1 h2 => Nat.lt_trans h1 h2⟩
  have hpw : List.Pairwise (fun x y => x.partNumber < y.partNumber) ps :=
    (@List.chain'_iff_pairwise _ _ htrans ps).mp hch
  have hv : validateParts md5f stored ps = .ok () := by
    unfold validateParts
    rw [if_neg (by simpa [List.isEmpty_iff] using hne)]
    obtain ⟨seen', hs1, _⟩ := validatePartsGo_through md5f stored ps 0 []
      hpw (fun p hp => hpos p hp) hmat (by simp)
    have hrun := hs1 []
    rw [List.append_nil] at hrun
    rw [hrun]
    rfl
  refine ⟨hv, ?_⟩
  unfold completeMultipart
  rw [hv]

/-- Witness for C3: two staged parts completed in order under the constant
digest. -/
theorem multipartComplete_C3_witness :
    validateParts md5Zero exampleStored
      [⟨1, exampleZeroEtag⟩, ⟨2, exampleZeroEtag⟩] = .ok () ∧
    completeMultipart md5Zero exampleStored
      [⟨1, exampleZeroEtag⟩, ⟨2, exampleZeroEtag⟩] =
      .ok (([⟨1, exampleZeroEtag⟩, ⟨2, exampleZeroEtag⟩] :
          List CompletePart).flatMap
            (fun p => (lookupPart exampleStored p.partNumber).getD []),
        quote (hexEncode (md5Zero (([⟨1, exampleZeroEtag⟩,
            ⟨2, exampleZeroEtag⟩] : List CompletePart).flatMap (fun p =>
          md5Zero ((lookupPart exampleStored p.partNumber).getD [])))) ++
          "-" ++ goItoa ([⟨1, exampleZeroEtag⟩,
            ⟨2, exampleZeroEtag⟩] : List CompletePart).length)) :=
  multipartComplete_C3 md5Zero exampleStored
    [⟨1, exampleZeroEtag⟩, ⟨2, exampleZeroEtag⟩]
    (by decide) (by simp [List.chain'_cons]) (by decide) (by decide)

/-- C4 (counterexample): a duplicate part number is reported as
`InvalidPartOrder`, not `InvalidPart` — the strictly-increasing check
`PartNumber <= prevNum` (rate_limiter.go:499) fires before the dedicated
duplicate check, which is unreachable — refuting the claim's "a part list
containing a duplicate part number ... returns InvalidPart". -/
theorem multipartValidate_dup_counterexample_C4 :
    validateParts md5Zero exampleStored
      [⟨1, exampleZeroEtag⟩, ⟨1, exampleZeroEtag⟩] =
      .error .InvalidPartOrder ∧
    S3Err.InvalidPartOrder ≠ S3Err.InvalidPart :=
  ⟨rfl, by decide⟩

/-- C4 (amended): Complete rejects the empty part list with `InvalidPart`;
after a valid strictly increasing, matching prelude, a part number that
does not exceed the running maximum — an out-of-order part OR a duplicate
— is `InvalidPartOrder` (the dedicated duplicate branch is unreachable);
and a strictly increasing reference to a part number or ETag with no
matching stored entry is `InvalidPart`. -/
theorem multipartValidate_C4 (md5f : Bytes → Bytes)
    (stored : List (Nat × Bytes)) :
    (validateParts md5f stored [] = .error .InvalidPart) ∧
    (∀ pre a post,
      List.Pairwise (fun x y => x.partNumber < y.partNumber) pre →
      (∀ q ∈ pre, 1 ≤ q.partNumber) →
      (∀ q ∈ pre, partMatches md5f stored q = true) →
      a.partNumber ≤ (pre.map (·.partNumber)).getLastD 0 →
      validateParts md5f stored (pre ++ a :: post) =
        .error .InvalidPartOrder) ∧
    (∀ pre a b post,
      List.Pairwise (fun x y => x.partNumber < y.partNumber) (pre ++ [a]) →
      (∀ q ∈ pre ++ [a], 1 ≤ q.partNumber) →
      (∀ q ∈ pre ++ [a], partMatches md5f stored q = true) →
      b.partNumber = a.partNumber →
      validateParts md5f stored (pre ++ a :: b :: post) =
        .error .InvalidPartOrder) ∧
    (∀ pre p post,
      List.Pairwise (fun x y => x.partNumber < y.partNumber) pre →
      (∀ q ∈ pre, 1 ≤ q.partNumber) →
      (∀ q ∈ pre, partMatches md5f stored q = true) →
      (pre.map (·.partNumber)).getLastD 0 < p.partNumber →
      partMatches md5f stored p = false →
      validateParts md5f stored (pre ++ p :: post) =
        .error .InvalidPart) := by
  have hgen2 : ∀ pre (a : CompletePart) post,
      List.Pairwise (fun x y => x.partNumber < y.partNumber) pre →
      (∀ q ∈ pre, 1 ≤ q.partNumber) →
      (∀ q ∈ pre, partMatches md5f stored q = true) →
      a.partNumber ≤ (pre.map (·.partNumber)).getLastD 0 →
      validateParts md5f stored (pre ++ a :: post) =
        .error .InvalidPartOrder := by
    intro pre a post hpw hpos hmat hle
    have hne : pre ++ a :: post ≠ [] := by cases pre <;> simp
    unfold validateParts
    rw [if_neg (by simpa [List.isEmpty_iff] using hne)]
    obtain ⟨seen', hs1, _⟩ := validatePartsGo_through md5f stored pre 0 []
      hpw (fun q hq => hpos q hq) hmat (by simp)
    rw [hs1 (a :: post), validatePartsGo, if_pos hle]
  refine ⟨rfl, hgen2, ?_, ?_⟩
  · intro pre a b post hpw hpos hmat hdup
    have hform : pre ++ a :: b :: post = (pre ++ [a]) ++ b :: post := by
      simp
    rw [hform]
    apply hgen2 (pre ++ [a]) b post hpw hpos hmat
    rw [List.map_append, List.map_cons, List.map_nil,
      getLastD_append_singleton]
    omega
  · intro pre p post hpw hpos hmat hgt hpm
    have hne : pre ++ p :: post ≠ [] := by cases pre <;> simp
    unfold validateParts
    rw [if_neg (by simpa [List.isEmpty_iff] using hne)]
    obtain ⟨seen', hs1, hs2⟩ := validatePartsGo_through md5f stored pre 0 []
      hpw (fun q hq => hpos q hq) hmat (by simp)
    rw [hs1 (p :: post), validatePartsGo, if_neg (by omega),
      if_neg (fun hmem => absurd (hs2 _ hmem) (by omega))]
    unfold partMatches at hpm
    cases hl : lookupPart stored p.partNumber with
    | none => rfl
    | some bytes =>
        rw [hl] at hpm
        simp only [decide_eq_false_iff_not] at hpm
        dsimp only
        rw [if_pos hpm]

/-- Witness for C4's amended statement: empty list, an out-of-order pair
after a matching part, a duplicate pair, and a reference to an unstaged
part number. -/
theorem multipartValidate_C4_witness :
    validateParts md5Zero exampleStored [] = .error .InvalidPart ∧
    validateParts md5Zero exampleStored
      ([⟨2, exampleZeroEtag⟩] ++ (⟨1, exampleZeroEtag⟩ : CompletePart) ::
        []) = .error .InvalidPartOrder ∧
    validateParts md5Zero exampleStored
      ([] ++ (⟨1, exampleZeroEtag⟩ : CompletePart) ::
        (⟨1, exampleZeroEtag⟩ : CompletePart) :: []) =
      .error .InvalidPartOrder ∧
    validateParts md5Zero exampleStored
      ([⟨1, exampleZeroEtag⟩] ++ (⟨3, exampleZeroEtag⟩ : CompletePart) ::
        []) = .error .InvalidPart := by
  have h := multipartValidate_C4 md5Zero exampleStored
  exact ⟨h.1,
    h.2.1 [⟨2, exampleZeroEtag⟩] ⟨1, exampleZeroEtag⟩ [] (by simp)
      (by decide) (by decide) (by decide),
    h.2.2.1 [] ⟨1, exampleZeroEtag⟩ ⟨1, exampleZeroEtag⟩ [] (by simp)
      (by decide) (by decide) (by decide),
    h.2.2.2 [⟨1, exampleZeroEtag⟩] ⟨3, exampleZeroEtag⟩ [] (by simp)
      (by decide) (by decide) (by decide) (by decide)⟩

/-! ### Request coalescer (C9) -/

lemma updThread_same (f : Nat → ThreadState) (t : Nat) (v : ThreadState) :
    updThread f t v t = v := by simp [updThread]

lemma updThread_other (f : Nat → ThreadState) (t : Nat) (v : ThreadState)
    (u : Nat) (h : u ≠ t) : updThread f t v u = f u := by simp [updThread, h]

lemma coExec_cons (fnVal : Nat → Nat) (σ : CoState) (t : Nat) (s : List Nat) :
    coExec fnVal σ (t :: s) = coExec fnVal (coStep fnVal σ t) s := rfl

lemma coExec_append (fnVal : Nat → Nat) (σ : CoState) (s1 s2 : List Nat) :
    coExec fnVal σ (s1 ++ s2) = coExec fnVal (coExec fnVal σ s1) s2 := by
  simp [coExec, List.foldl_append]

lemma coStep_ready_some {fnVal : Nat → Nat} {σ : CoState} {t rid : Nat}
    (ht : σ.threads t = .ready) (hin : σ.inflight = some rid) :
    coStep fnVal σ t =
      { σ with threads := updThread σ.threads t (.waiting rid) } := by
  unfold coStep
  rw [ht, hin]

lemma coStep_ready_none {fnVal : Nat → Nat} {σ : CoState} {t : Nat}
    (ht : σ.threads t = .ready) (hin : σ.inflight = none) :
    coStep fnVal σ t =
      { σ with
        threads := updThread σ.threads t (.runFn σ.reqs.length)
        reqs := σ.reqs ++ [⟨none, false⟩]
        inflight := some σ.reqs.length } := by
  unfold coStep
  rw [ht, hin]

lemma coStep_runFn {fnVal : Nat → Nat} {σ : CoState} {t rid : Nat}
    (ht : σ.threads t = .runFn rid) :
    coStep fnVal σ t =
      { σ with
        threads := updThread σ.threads t (.delKey rid)
        reqs := modifyReq σ.reqs rid
          (fun r => { r with result := some (fnVal t) })
        fnCalls := σ.fnCalls + 1 } := by
  unfold coStep
  rw [ht]

lemma coStep_delKey {fnVal : Nat → Nat} {σ : CoState} {t rid : Nat}
    (ht : σ.threads t = .delKey rid) :
    coStep fnVal σ t =
      { σ with
        threads := updThread σ.threads t (.closeCh rid)
        inflight := none } := by
  unfold coStep
  rw [ht]

lemma coStep_closeCh {fnVal : Nat → Nat} {σ : CoState} {t rid : Nat}
    (ht : σ.threads t = .closeCh rid) :
    coStep fnVal σ t =
      { σ with
        threads := updThread σ.threads t
          (.finished ((getReq σ.reqs rid).result.getD 0))
        reqs := modifyReq σ.reqs rid (fun r => { r with closed := true }) } := by
  unfold coStep
  rw [ht]

lemma coStep_waiting_open {fnVal : Nat → Nat} {σ : CoState} {t rid : Nat}
    (ht : σ.threads t = .waiting rid)
    (hc : (getReq σ.reqs rid).closed = false) :
    coStep fnVal σ t = σ := by
  unfold coStep
  rw [ht]
  simp [hc]

lemma coStep_waiting_closed {fnVal : Nat → Nat} {σ : CoState} {t rid : Nat}
    (ht : σ.threads t = .waiting rid)
    (hc : (getReq σ.reqs rid).closed = true) :
    coStep fnVal σ t =
      { σ with
        threads := updThread σ.threads t
          (.finished ((getReq σ.reqs rid).result.getD 0)) } := by
  unfold coStep
  rw [ht]
  simp [hc]

lemma coStep_finished {fnVal : Nat → Nat} {σ : CoState} {t : Nat} {v : Nat}
    (ht : σ.threads t = .finished v) :
    coStep fnVal σ t = σ := by
  unfold coStep
  rw [ht]

lemma coPhase1 (fnVal : Nat → Nat) (l : Nat) (s : List Nat) :
    ∀ σ : CoState, coP l σ → (∀ t ∈ s, t ≠ l) →
      coP l (coExec fnVal σ s) ∧
      (∀ t, σ.threads t = .waiting 0 →
        (coExec fnVal σ s).threads t = .waiting 0) ∧
      (∀ t ∈ s, (coExec fnVal σ s).threads t = .waiting 0) ∧
      (∀ t, t ∉ s → (coExec fnVal σ s).threads t = σ.threads t) := by
  induction s with
  | nil =>
      intro σ hP _
      exact ⟨hP, fun _ h => h, fun t ht => absurd ht (List.not_mem_nil t),
        fun _ _ => rfl⟩
  | cons t s ih =>
      intro σ hP hs
      have htl : t ≠ l := hs t (List.mem_cons_self t s)
      obtain ⟨hl, hreqs, hinf, hfn, hothers⟩ := hP
      rw [coExec_cons]
      rcases hothers t htl with hrdy | hwait
      · have h1 : coStep fnVal σ t =
            { σ with threads := updThread σ.threads t (.waiting 0) } :=
          coStep_ready_some hrdy hinf
        have hP' : coP l (coStep fnVal σ t) := by
          rw [h1]
          refine ⟨?_, hreqs, hinf, hfn, ?_⟩
          · show updThread σ.threads t (.waiting 0) l = _
            rw [updThread_other _ _ _ _ (Ne.symm htl)]
            exact hl
          · intro u hul
            by_cases hut : u = t
            · subst hut
              right
              exact updThread_same _ _ _
            · show updThread σ.threads t (.waiting 0) u = _ ∨
                updThread σ.threads t (.waiting 0) u = _
              rw [updThread_other _ _ _ _ hut]
              exact hothers u hul
        have hrec := ih (coStep fnVal σ t) hP'
          (fun u hu => hs u (List.mem_cons_of_mem _ hu))
        refine ⟨hrec.1, ?_, ?_, ?_⟩
        · intro u hu
          have hut : u ≠ t := by
            rintro rfl
            rw [hrdy] at hu
            cases hu
          apply hrec.2.1
          rw [h1]
          show updThread σ.threads t (.waiting 0) u = _
          rw [updThread_other _ _ _ _ hut]
          exact hu
        · intro u hu
          rcases List.mem_cons.mp hu with rfl | hu'
          · apply hrec.2.1
            rw [h1]
            exact updThread_same _ _ _
          · exact hrec.2.2.1 u hu'
        · intro u hu
          have hut : u ≠ t := fun hc => hu (hc ▸ List.mem_cons_self t s)
          have hus : u ∉ s := fun hc => hu (List.mem_cons_of_mem _ hc)
          rw [hrec.2.2.2 u hus, h1]
          exact updThread_other _ _ _ _ hut
      · have h1 : coStep fnVal σ t = σ := by
          apply coStep_waiting_open hwait
          rw [hreqs]
          rfl
        rw [h1]
        have hrec := ih σ ⟨hl, hreqs, hinf, hfn, hothers⟩
          (fun u hu => hs u (List.mem_cons_of_mem _ hu))
        refine ⟨hrec.1, hrec.2.1, ?_, ?_⟩
        · intro u hu
          rcases List.mem_cons.mp hu with rfl | hu'
          · exact hrec.2.1 u hwait
          · exact hrec.2.2.1 u hu'
        · intro u hu
          exact hrec.2.2.2 u (fun hc => hu (List.mem_cons_of_mem _ hc))

lemma coPhase2 (fnVal : Nat → Nat) (l : Nat) (σ : CoState)
    (hP : coP l σ) :
    ((coExec fnVal σ [l, l]).inflight = none ∧
     getReq (coExec fnVal σ [l, l]).reqs 0 = ⟨some (fnVal l), false⟩ ∧
     (∀ t, t ≠ l → (coExec fnVal σ [l, l]).threads t = σ.threads t)) ∧
    ((coExec fnVal σ [l, l, l]).threads l = .finished (fnVal l) ∧
     (coExec fnVal σ [l, l, l]).reqs = [⟨some (fnVal l), true⟩] ∧
     (coExec fnVal σ [l, l, l]).inflight = none ∧
     (coExec fnVal σ [l, l, l]).fnCalls = 1 ∧
     (∀ t, t ≠ l → (coExec fnVal σ [l, l, l]).threads t = σ.threads t)) := by
  obtain ⟨hl, hreqs, hinf, hfn, hothers⟩ := hP
  have h1 : coStep fnVal σ l =
      { σ with
        threads := updThread σ.threads l (.delKey 0)
        reqs := modifyReq σ.reqs 0
          (fun r => { r with result := some (fnVal l) })
        fnCalls := σ.fnCalls + 1 } := coStep_runFn hl
  have hreqs1 : modifyReq σ.reqs 0
      (fun r => { r with result := some (fnVal l) }) =
      [⟨some (fnVal l), false⟩] := by
    rw [hreqs]
    rfl
  have h2 : coStep fnVal (coStep fnVal σ l) l =
      { σ with
        threads := updThread σ.threads l (.closeCh 0)
        reqs := [⟨some (fnVal l), false⟩]
        fnCalls := σ.fnCalls + 1
        inflight := none } := by
    rw [h1]
    rw [coStep_delKey (show ({ σ with
        threads := updThread σ.threads l (.delKey 0)
        reqs := modifyReq σ.reqs 0
          (fun r => { r with result := some (fnVal l) })
        fnCalls := σ.fnCalls + 1 } : CoState).threads l = .delKey 0
      from updThread_same _ _ _)]
    simp only [hreqs1]
    congr 1
    funext u
    by_cases hu : u = l
    · subst hu
      rw [updThread_same, updThread_same]
    · rw [updThread_other _ _ _ _ hu, updThread_other _ _ _ _ hu,
        updThread_other _ _ _ _ hu]
  have h3 : coStep fnVal (coStep fnVal (coStep fnVal σ l) l) l =
      { σ with
        threads := updThread σ.threads l (.finished (fnVal l))
        reqs := [⟨some (fnVal l), true⟩]
        fnCalls := σ.fnCalls + 1
        inflight := none } := by
    rw [h2]
    rw [coStep_closeCh (show ({ σ with
        threads := updThread σ.threads l (.closeCh 0)
        reqs := [⟨some (fnVal l), false⟩]
        fnCalls := σ.fnCalls + 1
        inflight := none } : CoState).threads l = .closeCh 0
      from updThread_same _ _ _)]
    have hres : (getReq ([⟨some (fnVal l), false⟩] : List ReqRec) 0).result.getD 0
        = fnVal l := rfl
    simp only [hres]
    congr 1
    funext u
    by_cases hu : u = l
    · subst hu
      rw [updThread_same, updThread_same]
    · rw [updThread_other _ _ _ _ hu, updThread_other _ _ _ _ hu,
        updThread_other _ _ _ _ hu]
  have hexec2 : coExec fnVal σ [l, l] = coStep fnVal (coStep fnVal σ l) l := rfl
  have hexec3 : coExec fnVal σ [l, l, l] =
      coStep fnVal (coStep fnVal (coStep fnVal σ l) l) l := rfl
  rw [hexec2, hexec3, h3, h2]
  refine ⟨⟨rfl, rfl, fun t ht => updThread_other _ _ _ _ ht⟩,
    updThread_same _ _ _, rfl, rfl, by rw [hfn],
    fun t ht => updThread_other _ _ _ _ ht⟩

lemma coPhase3 (fnVal : Nat → Nat) (l : Nat) (s1 : List Nat)
    (s : List Nat) :
    ∀ σ : CoState, coQ fnVal l s1 σ → (∀ t ∈ s, t = l ∨ t ∈ s1) →
      coQ fnVal l s1 (coExec fnVal σ s) ∧
      (∀ t, σ.threads t = .finished (fnVal l) →
        (coExec fnVal σ s).threads t = .finished (fnVal l)) ∧
      (∀ t ∈ s, (coExec fnVal σ s).threads t = .finished (fnVal l)) ∧
      (∀ t, t ∉ s → (coExec fnVal σ s).threads t = σ.threads t) := by
  induction s with
  | nil =>
      intro σ hQ _
      exact ⟨hQ, fun _ h => h, fun t ht => absurd ht (List.not_mem_nil t),
        fun _ _ => rfl⟩
  | cons t s ih =>
      intro σ hQ hs
      obtain ⟨hl, hreqs, hinf, hfn, hwaiters⟩ := hQ
      rw [coExec_cons]
      have hstat : σ.threads t = .waiting 0 ∨
          σ.threads t = .finished (fnVal l) := by
        rcases hs t (List.mem_cons_self t s) with rfl | hmem
        · right
          exact hl
        · exact hwaiters t hmem
      have hcl : (getReq σ.reqs 0).closed = true := by
        rw [hreqs]
        rfl
      have hval : (getReq σ.reqs 0).result.getD 0 = fnVal l := by
        rw [hreqs]
        rfl
      rcases hstat with hw | hf
      · have h1 : coStep fnVal σ t =
            { σ with
              threads := updThread σ.threads t
                (.finished ((getReq σ.reqs 0).result.getD 0)) } :=
          coStep_waiting_closed hw hcl
        rw [hval] at h1
        have hQ' : coQ fnVal l s1 (coStep fnVal σ t) := by
          rw [h1]
          refine ⟨?_, hreqs, hinf, hfn, ?_⟩
          · show updThread σ.threads t (.finished (fnVal l)) l = _
            by_cases hlt : l = t
            · subst hlt
              exact updThread_same _ _ _
            · rw [updThread_other _ _ _ _ hlt]
              exact hl
          · intro u hu
            by_cases hut : u = t
            · subst hut
              right
              exact updThread_same _ _ _
            · show updThread σ.threads t (.finished (fnVal l)) u = _ ∨
                updThread σ.threads t (.finished (fnVal l)) u = _
              rw [updThread_other _ _ _ _ hut]
              exact hwaiters u hu
        have hrec := ih (coStep fnVal σ t) hQ'
          (fun u hu => hs u (List.mem_cons_of_mem _ hu))
        refine ⟨hrec.1, ?_, ?_, ?_⟩
        · intro u hu
          apply hrec.2.1
          rw [h1]
          by_cases hut : u = t
          · subst hut
            exact updThread_same _ _ _
          · show updThread σ.threads t (.finished (fnVal l)) u = _
            rw [updThread_other _ _ _ _ hut]
            exact hu
        · intro u hu
          rcases List.mem_cons.mp hu with rfl | hu'
          · apply hrec.2.1
            rw [h1]
            exact updThread_same _ _ _
          · exact hrec.2.2.1 u hu'
        · intro u hu
          have hut : u ≠ t := fun hc => hu (hc ▸ List.mem_cons_self t s)
          have hus : u ∉ s := fun hc => hu (List.mem_cons_of_mem _ hc)
          rw [hrec.2.2.2 u hus, h1]
          exact updThread_other _ _ _ _ hut
      · have h1 : coStep fnVal σ t = σ := coStep_finished hf
        rw [h1]
        have hrec := ih σ ⟨hl, hreqs, hinf, hfn, hwaiters⟩
          (fun u hu => hs u (List.mem_cons_of_mem _ hu))
        refine ⟨hrec.1, hrec.2.1, ?_, ?_⟩
        · intro u hu
          rcases List.mem_cons.mp hu with rfl | hu'
          · exact hrec.2.1 u hf
          · exact hrec.2.2.1 u hu'
        · intro u hu
          exact hrec.2.2.2 u (fun hc => hu (List.mem_cons_of_mem _ hc))

/-- C9: when the callers of `Do(key, fn)` overlap — leader `l` enters
first, every other caller (the list `s1`) enters while `fn` is still in
flight, then the leader runs `fn`, deletes the key, closes the done
channel, and the waiters drain (schedule `s3` over the original callers) —
`fn` is invoked exactly once, every caller finishes with the same result
`fnVal l`, the key is removed from the in-flight table before the done
channel closes (so no waiter has resumed at that point), and a subsequent
fresh call after completion runs `fn` again. -/
theorem coalescer_single_flight_C9 (fnVal : Nat → Nat) (l : Nat)
    (s1 s3 : List Nat) (hl1 : l ∉ s1)
    (hs3 : ∀ t ∈ s3, t = l ∨ t ∈ s1)
    (hall : ∀ t ∈ s1, t ∈ s3) :
    (coExec fnVal coInit ((l :: s1) ++ [l, l, l] ++ s3)).fnCalls = 1 ∧
    (coExec fnVal coInit ((l :: s1) ++ [l, l, l] ++ s3)).threads l =
      .finished (fnVal l) ∧
    (∀ t ∈ s1,
      (coExec fnVal coInit ((l :: s1) ++ [l, l, l] ++ s3)).threads t =
        .finished (fnVal l)) ∧
    ((coExec fnVal coInit ((l :: s1) ++ [l, l])).inflight = none ∧
     (getReq (coExec fnVal coInit ((l :: s1) ++ [l, l])).reqs 0).closed =
       false ∧
     (∀ t ∈ s1, (coExec fnVal coInit ((l :: s1) ++ [l, l])).threads t =
       .waiting 0)) ∧
    (∀ x, x ∉ l :: s1 → x ∉ s3 →
      (coExec fnVal coInit
        (((l :: s1) ++ [l, l, l] ++ s3) ++ [x, x])).fnCalls = 2) := by
  have hP1 : coP l (coStep fnVal coInit l) := by
    rw [coStep_ready_none (show coInit.threads l = .ready from rfl) rfl]
    refine ⟨updThread_same _ _ _, rfl, rfl, rfl, ?_⟩
    intro u hul
    left
    show updThread coInit.threads l _ u = _
    rw [updThread_other _ _ _ _ hul]
    rfl
  have hs1ne : ∀ t ∈ s1, t ≠ l := fun t ht hc => hl1 (hc ▸ ht)
  have hph1 := coPhase1 fnVal l s1 (coStep fnVal coInit l) hP1 hs1ne
  have hP2 : coP l (coExec fnVal (coStep fnVal coInit l) s1) := hph1.1
  have hwait2 : ∀ t ∈ s1,
      (coExec fnVal (coStep fnVal coInit l) s1).threads t = .waiting 0 :=
    hph1.2.2.1
  have hph2 := coPhase2 fnVal l (coExec fnVal (coStep fnVal coInit l) s1) hP2
  obtain ⟨⟨hin2, hreq2, hth2⟩, hl3, hreqs3, hinf3, hfn3, hth3⟩ := hph2
  have hQ3 : coQ fnVal l s1
      (coExec fnVal (coExec fnVal (coStep fnVal coInit l) s1) [l, l, l]) := by
    refine ⟨hl3, hreqs3, hinf3, hfn3, ?_⟩
    intro t ht
    left
    rw [hth3 t (hs1ne t ht)]
    exact hwait2 t ht
  have hph3 := coPhase3 fnVal l s1 s3
    (coExec fnVal (coExec fnVal (coStep fnVal coInit l) s1) [l, l, l])
    hQ3 hs3
  obtain ⟨hQf, hfin_pres, hfin_s3, huntouched⟩ := hph3
  have hd2 : coExec fnVal coInit ((l :: s1) ++ [l, l]) =
      coExec fnVal (coExec fnVal (coStep fnVal coInit l) s1) [l, l] := by
    rw [coExec_append]
    rfl
  have hd3 : coExec fnVal coInit ((l :: s1) ++ [l, l, l] ++ s3) =
      coExec fnVal
        (coExec fnVal (coExec fnVal (coStep fnVal coInit l) s1) [l, l, l])
        s3 := by
    rw [coExec_append, coExec_append]
    rfl
  refine ⟨?_, ?_, ?_, ⟨?_, ?_, ?_⟩, ?_⟩
  · rw [hd3]
    exact hQf.2.2.2.1
  · rw [hd3]
    exact hQf.1
  · intro t ht
    rw [hd3]
    exact hfin_s3 t (hall t ht)
  · rw [hd2]
    exact hin2
  · rw [hd2, hreq2]
  · intro t ht
    rw [hd2, hth2 t (hs1ne t ht)]
    exact hwait2 t ht
  · intro x hx1 hx3
    have hxl : x ≠ l := fun hc => hx1 (hc ▸ List.mem_cons_self l s1)
    have hxs1 : x ∉ s1 := fun hc => hx1 (List.mem_cons_of_mem _ hc)
    have hfx : (coExec fnVal
        (coExec fnVal (coExec fnVal (coStep fnVal coInit l) s1) [l, l, l])
        s3).threads x = .ready := by
      rw [huntouched x hx3, hth3 x hxl, hph1.2.2.2 x hxs1]
      show updThread coInit.threads l _ x = _
      rw [updThread_other _ _ _ _ hxl]
      rfl
    have hde : coExec fnVal coInit
        (((l :: s1) ++ [l, l, l] ++ s3) ++ [x, x]) =
        coStep fnVal (coStep fnVal
          (coExec fnVal
            (coExec fnVal (coExec fnVal (coStep fnVal coInit l) s1)
              [l, l, l]) s3) x) x := by
      rw [coExec_append, hd3]
      rfl
    rw [hde]
    rw [coStep_runFn (show (coStep fnVal
        (coExec fnVal
          (coExec fnVal (coExec fnVal (coStep fnVal coInit l) s1) [l, l, l])
          s3) x).threads x = .runFn _ from by
      rw [coStep_ready_none hfx hQf.2.2.1]
      exact updThread_same _ _ _)]
    show (coStep fnVal _ x).fnCalls + 1 = 2
    rw [coStep_ready_none hfx hQf.2.2.1]
    show (coExec fnVal _ s3).fnCalls + 1 = 2
    rw [hQf.2.2.2.1]

/-- Witness for C9: leader 0 and two concurrent waiters 1 and 2. -/
theorem coalescer_single_flight_C9_witness :
    (coExec (fun t => 100 + t) coInit
      ((0 :: [1, 2]) ++ [0, 0, 0] ++ [1, 2])).fnCalls = 1 ∧
    (coExec (fun t => 100 + t) coInit
      ((0 :: [1, 2]) ++ [0, 0, 0] ++ [1, 2])).threads 0 =
      .finished ((fun t => 100 + t) 0) ∧
    (∀ t ∈ [1, 2],
      (coExec (fun t => 100 + t) coInit
        ((0 :: [1, 2]) ++ [0, 0, 0] ++ [1, 2])).threads t =
        .finished ((fun t => 100 + t) 0)) ∧
    ((coExec (fun t => 100 + t) coInit ((0 :: [1, 2]) ++ [0, 0])).inflight =
      none ∧
     (getReq (coExec (fun t => 100 + t) coInit
        ((0 :: [1, 2]) ++ [0, 0])).reqs 0).closed = false ∧
     (∀ t ∈ [1, 2],
       (coExec (fun t => 100 + t) coInit
         ((0 :: [1, 2]) ++ [0, 0])).threads t = .waiting 0)) ∧
    (∀ x, x ∉ 0 :: [1, 2] → x ∉ [1, 2] →
      (coExec (fun t => 100 + t) coInit
        (((0 :: [1, 2]) ++ [0, 0, 0] ++ [1, 2]) ++ [x, x])).fnCalls = 2) :=
  coalescer_single_flight_C9 (fun t => 100 + t) 0 [1, 2] [1, 2]
    (by decide) (by decide) (by decide)

end S3Spec
